import Mathlib

/-!
Verification development for the patch-recorder library: a recorder of
RFC-6902-style JSON patches produced by mutating a nested structure in place
through an intercepting wrapper (src/src/proxy.ts), with container-specific
handlers for ordered sequences (src/unnamed/part_004), hash-maps
(src/src/maps.ts) and hash-sets (src/src/sets.ts), patch construction
(src/src/patches.ts, src/src/utils.ts) and an optional compression pass
(src/src/optimizer.ts).

The host language values are modelled by the inductive type `Val` below:
plain key-value containers are insertion-ordered field lists, ordered
sequences are element lists (sparse holes are identified with explicit
`undef` elements), hash-maps are insertion-ordered entry lists whose keys
are primitives, hash-sets are element lists. Mutation in place is modelled
by threading the root value through every step: the session never takes a
snapshot, so the "original" root consulted by the classification helpers is
the same, already mutated, structure. Reference identity of the host
language is modelled by structural identity; this is exact for primitives
(including the NaN special case, which gets its own constructor) and is a
modelling convention for containers.
-/

/-- Property and path keys: strings, numbers and symbols. A numeric string
property is represented directly by its numeric form (the proxy converts
numeric string properties to numbers for paths, and the underlying host
coerces numbers back to strings for plain property access, so the two are
interchangeable as keys). Symbols carry an identifying tag. -/
inductive Key where
  | str (s : String)
  | num (n : Int)
  | sym (i : Nat)
deriving DecidableEq, Repr

mutual
/-- Model of host values. `exotic` stands for any other host value (function,
date, regexp, ...) which the recorder passes through by reference; the tag
identifies the reference. -/
inductive Val where
  | undef
  | nul
  | boolV (b : Bool)
  | int (n : Int)
  | nan
  | strV (s : String)
  | exotic (id : Nat)
  | obj (fields : Fields)
  | arr (elems : Vals)
  | vmap (entries : Fields)
  | vset (elems : Vals)

/-- Spine type for a list of values (elements of an ordered sequence or a
hash-set). -/
inductive Vals where
  | nil
  | cons (head : Val) (tail : Vals)

/-- Spine type for an insertion-ordered association list of key-value pairs
(fields of a plain container, or entries of a hash-map). -/
inductive Fields where
  | nil
  | cons (k : Key) (v : Val) (tail : Fields)
end

namespace Vals

def length : Vals → Nat
  | .nil => 0
  | .cons _ tl => tl.length + 1

def get? : Vals → Nat → Option Val
  | .nil, _ => none
  | .cons v _, 0 => some v
  | .cons _ tl, n + 1 => tl.get? n

def append : Vals → Vals → Vals
  | .nil, ys => ys
  | .cons v tl, ys => .cons v (tl.append ys)

def take : Vals → Nat → Vals
  | _, 0 => .nil
  | .nil, _ => .nil
  | .cons v tl, n + 1 => .cons v (tl.take n)

def drop : Vals → Nat → Vals
  | vs, 0 => vs
  | .nil, _ => .nil
  | .cons _ tl, n + 1 => tl.drop n

/-- Replace the element at an index, leaving the list unchanged when the
index is out of range. -/
def setAt : Vals → Nat → Val → Vals
  | .nil, _, _ => .nil
  | .cons _ tl, 0, v => .cons v tl
  | .cons w tl, n + 1, v => .cons w (tl.setAt n v)

def replicateUndef : Nat → Vals
  | 0 => .nil
  | n + 1 => .cons .undef (replicateUndef n)

def ofList : List Val → Vals
  | [] => .nil
  | v :: tl => .cons v (ofList tl)

def toList : Vals → List Val
  | .nil => []
  | .cons v tl => v :: tl.toList

end Vals

namespace Fields

def lookup? : Fields → Key → Option Val
  | .nil, _ => none
  | .cons k v tl, k0 => if k = k0 then some v else tl.lookup? k0

def hasKey (fs : Fields) (k : Key) : Bool :=
  (fs.lookup? k).isSome

/-- Update the value stored under a key in place, or append a new entry at
the end. This is both plain-container property assignment order and hash-map
insertion order in the host language. -/
def setKey : Fields → Key → Val → Fields
  | .nil, k, v => .cons k v .nil
  | .cons k0 v0 tl, k, v =>
      if k0 = k then .cons k0 v tl else .cons k0 v0 (tl.setKey k v)

def removeKey : Fields → Key → Fields
  | .nil, _ => .nil
  | .cons k0 v0 tl, k =>
      if k0 = k then tl else .cons k0 v0 (tl.removeKey k)

def keys : Fields → List Key
  | .nil => []
  | .cons k _ tl => k :: tl.keys

def toList : Fields → List (Key × Val)
  | .nil => []
  | .cons k v tl => (k, v) :: tl.toList

def ofList : List (Key × Val) → Fields
  | [] => .nil
  | (k, v) :: tl => .cons k v (ofList tl)

end Fields

mutual
/-- Structural equality of values, with NaN equal to itself. This is the
model of both reference identity and the SameValueZero comparison of the
host language (exact for primitives, a convention for containers). -/
def beqV : Val → Val → Bool
  | .undef, .undef => true
  | .nul, .nul => true
  | .boolV a, .boolV b => a == b
  | .int a, .int b => a == b
  | .nan, .nan => true
  | .strV a, .strV b => a == b
  | .exotic a, .exotic b => a == b
  | .obj a, .obj b => beqF a b
  | .arr a, .arr b => beqL a b
  | .vmap a, .vmap b => beqF a b
  | .vset a, .vset b => beqL a b
  | _, _ => false

def beqL : Vals → Vals → Bool
  | .nil, .nil => true
  | .cons a ta, .cons b tb => beqV a b && beqL ta tb
  | _, _ => false

def beqF : Fields → Fields → Bool
  | .nil, .nil => true
  | .cons ka va ta, .cons kb vb tb => ka == kb && beqV va vb && beqF ta tb
  | _, _ => false
end

mutual
theorem beqV_iff : ∀ a b : Val, beqV a b = true ↔ a = b
  | a, b => by
      cases a <;> cases b <;> simp [beqV] <;>
        first
          | exact beqF_iff _ _
          | exact beqL_iff _ _

theorem beqL_iff : ∀ a b : Vals, beqL a b = true ↔ a = b
  | .nil, .nil => by simp [beqL]
  | .cons a ta, .cons b tb => by
      simp [beqL, beqV_iff a b, beqL_iff ta tb]
  | .nil, .cons _ _ => by simp [beqL]
  | .cons _ _, .nil => by simp [beqL]

theorem beqF_iff : ∀ a b : Fields, beqF a b = true ↔ a = b
  | .nil, .nil => by simp [beqF]
  | .cons ka va ta, .cons kb vb tb => by
      simp [beqF, beqV_iff va vb, beqF_iff ta tb, and_assoc]
  | .nil, .cons _ _ _ => by simp [beqF]
  | .cons _ _ _, .nil => by simp [beqF]
end

instance : DecidableEq Val := fun a b => decidable_of_iff _ (beqV_iff a b)

instance : DecidableEq Vals := fun a b => decidable_of_iff _ (beqL_iff a b)

instance : DecidableEq Fields := fun a b => decidable_of_iff _ (beqF_iff a b)

/-! ## Host-language property semantics -/

/-- Truthiness of a host value. -/
def truthy : Val → Bool
  | .undef => false
  | .nul => false
  | .boolV b => b
  | .int n => n != 0
  | .nan => false
  | .strV s => s != ""
  | .exotic _ => true
  | .obj _ => true
  | .arr _ => true
  | .vmap _ => true
  | .vset _ => true

/-- Is the value a container (the only values the wrapper ever wraps)? -/
def isContainer : Val → Bool
  | .obj _ => true
  | .arr _ => true
  | .vmap _ => true
  | .vset _ => true
  | _ => false

/-- Raw property access, `value[key]`. Hash-map and hash-set entries are not
properties, so raw access on them yields undefined; an ordered sequence
exposes its elements at numeric keys and its length. -/
def getPropRaw : Val → Key → Val
  | .obj fs, k => (fs.lookup? k).getD .undef
  | .arr l, .num n =>
      if 0 ≤ n then (l.get? n.toNat).getD .undef else .undef
  | .arr l, .str s => if s = "length" then .int l.length else .undef
  | _, _ => (.undef)

/-- Own-property test, `Object.prototype.hasOwnProperty.call(value, key)`.
Sequences are modelled without sparse holes, so every index below the length
is an own key. -/
def hasOwnProp : Val → Key → Bool
  | .obj fs, k => fs.hasKey k
  | .arr l, .num n => decide (0 ≤ n) && decide (n.toNat < l.length)
  | .arr _, .str s => s == "length"
  | _, _ => false

/-- Raw property assignment, `value[key] = v`. Assigning past the end of a
sequence fills the gap with undefined elements; assigning to the length
truncates or extends. Expando properties on sequences (negative or
non-numeric keys) and properties of primitives are outside the model and
leave the value unchanged. -/
def setPropRaw : Val → Key → Val → Val
  | .obj fs, k, v => .obj (fs.setKey k v)
  | .arr l, .num n, v =>
      if n < 0 then .arr l
      else if n.toNat < l.length then .arr (l.setAt n.toNat v)
      else .arr ((l.append (Vals.replicateUndef (n.toNat - l.length))).append (.cons v .nil))
  | .arr l, .str s, v =>
      if s = "length" then
        match v with
        | .int m =>
            if 0 ≤ m then
              if m.toNat ≤ l.length then .arr (l.take m.toNat)
              else .arr (l.append (Vals.replicateUndef (m.toNat - l.length)))
            else .arr l
        | _ => .arr l
      else .arr l
  | .arr l, .sym _, _ => .arr l
  | v, _, _ => v

/-- Raw property deletion, `delete value[key]`, on a plain container. -/
def deletePropRaw : Val → Key → Val
  | .obj fs, k => .obj (fs.removeKey k)
  | v, _ => v

/-! ## Navigation

Two distinct navigations coexist in the source. The wrapper tree is built by
the get traps: a plain-container or sequence read returns a wrapper for the
nested container, and a hash-map get returns a wrapper for an object value
(src/src/proxy.ts get, src/src/maps.ts get). The classification helpers
instead walk the root by raw property access (src/src/proxy.ts lines 82-88,
src/src/maps.ts keyExistsInOriginal); raw access cannot see hash-map
entries, which makes the two navigations disagree below a hash-map. -/

/-- Wrapper navigation: the container a wrapper created at this path wraps.
Each step follows the corresponding get trap and only succeeds when the
child is itself a container (the proxy is only created for object values);
hash-set elements are never wrapped. -/
def navWrap : Val → List Key → Option Val
  | v, [] => if isContainer v then some v else none
  | .obj fs, k :: ks =>
      match fs.lookup? k with
      | some c => if isContainer c then navWrap c ks else none
      | none => none
  | .arr l, .num n :: ks =>
      if 0 ≤ n then
        match l.get? n.toNat with
        | some c => if isContainer c then navWrap c ks else none
        | none => none
      else none
  | .vmap es, k :: ks =>
      match es.lookup? k with
      | some c => if isContainer c then navWrap c ks else none
      | none => none
  | _, _ :: _ => none

/-- Write back the container sitting at a wrapper path. Together with
threading the root through every step this models mutation in place: the
session holds one structure, and the "original" consulted later is this same
mutated structure. -/
def updateWrap : Val → List Key → Val → Val
  | _, [], nv => nv
  | .obj fs, k :: ks, nv =>
      match fs.lookup? k with
      | some c => .obj (fs.setKey k (updateWrap c ks nv))
      | none => .obj fs
  | .arr l, .num n :: ks, nv =>
      if 0 ≤ n then
        match l.get? n.toNat with
        | some c => .arr (l.setAt n.toNat (updateWrap c ks nv))
        | none => .arr l
      else .arr l
  | .vmap es, k :: ks, nv =>
      match es.lookup? k with
      | some c => .vmap (es.setKey k (updateWrap c ks nv))
      | none => .vmap es
  | v, _ :: _, _ => v

/-- The original-state walk of the proxy set trap (src/src/proxy.ts lines
82-88): step by raw property access, stopping early as soon as an undefined
or null value is reached. -/
def navigateOriginal : Val → List Key → Val
  | v, [] => v
  | v, k :: ks =>
      let c := getPropRaw v k
      if c = .undef ∨ c = .nul then c else navigateOriginal c ks

/-- The pre-mutation key-presence check of the hash-map handler
(src/src/maps.ts keyExistsInOriginal): walk the root by raw property access,
then test key membership when a hash-map was reached. -/
def keyExistsInOriginal : Val → List Key → Key → Bool
  | cur, [], key =>
      match cur with
      | .vmap es => es.hasKey key
      | _ => false
  | cur, p :: ps, key =>
      if cur = .undef ∨ cur = .nul then false
      else keyExistsInOriginal (getPropRaw cur p) ps key

/-! ## Patches and emission -/

inductive Op where
  | add
  | remove
  | replace
deriving DecidableEq, Repr

/-- One emitted patch. `value` is present for add and replace; `id` is the
optional item id attached to remove and replace patches. -/
structure Patch where
  op : Op
  path : List Key
  value : Option Val := none
  id : Option Val := none
deriving DecidableEq

/-- Item-id extractor configuration: a tree mirroring the data shape whose
leaves are extractor functions (src/src/types.ts GetItemIdConfig). An
extractor returns the id, or undefined / null for none. -/
inductive IdConfig where
  | fn (f : Val → Val)
  | node (entries : List (String × IdConfig))

def lookupCfg : List (String × IdConfig) → String → Option IdConfig
  | [], _ => none
  | (s0, c) :: tl, s => if s0 = s then some c else lookupCfg tl s

/-- Recorder options (src/src/types.ts RecordPatchesOptions). -/
structure Options where
  arrayLengthAssignment : Bool := true
  compressPatches : Bool := true
  getItemId : Option IdConfig := none

/-- Walk of the id-extractor configuration along the parent path
(src/src/utils.ts findGetItemIdFn, loop body): numeric segments are skipped,
a symbol segment cannot be matched, a string segment indexes the
configuration object, and a missing or non-object intermediate aborts. -/
def walkCfg : Option IdConfig → List Key → Option (Val → Val)
  | cur, [] =>
      match cur with
      | some (.fn f) => some f
      | _ => none
  | cur, k :: ks =>
      match k with
      | .num _ => walkCfg cur ks
      | .sym _ => none
      | .str s =>
          match cur with
          | some (.node entries) => walkCfg (lookupCfg entries s) ks
          | _ => none

/-- Find the id extractor for a path (src/src/utils.ts findGetItemIdFn): no
configuration, an empty path, or a path directly under the root yields none;
otherwise the configuration is walked along the parent path. -/
def findGetItemIdFn (path : List Key) (cfg : Option IdConfig) : Option (Val → Val) :=
  match cfg with
  | none => none
  | some c =>
      if path.length = 0 then none
      else
        let parentPath := path.dropLast
        if parentPath.length = 0 then none
        else walkCfg (some c) parentPath

mutual
/-- Deep clone applied to every emitted patch value (src/src/utils.ts
cloneIfNeeded): recurses through ordered sequences, hash-maps (the source
clones map keys too; keys are primitives in this model, on which the clone
is the identity), hash-sets and plain containers, and passes every other
value through by reference. -/
def cloneIfNeeded : Val → Val
  | .obj fs => .obj (cloneFields fs)
  | .arr l => .arr (cloneVals l)
  | .vmap es => .vmap (cloneFields es)
  | .vset l => .vset (cloneVals l)
  | v => v

def cloneVals : Vals → Vals
  | .nil => .nil
  | .cons v tl => .cons (cloneIfNeeded v) (cloneVals tl)

def cloneFields : Fields → Fields
  | .nil => .nil
  | .cons k v tl => .cons k (cloneIfNeeded v) (cloneFields tl)
end

/-- Modelled from the spec: the two-argument formatPath helper called by
src/src/patches.ts is absent from the snapshot (the one-argument revision in
src/src/utils.ts returns only the pointer string, which contradicts the
array paths of the patch type and of every test). The spec fixes
array-of-keys as the default serialization, so formatPath is the identity on
the key array here. -/
def formatPath (path : List Key) (_opts : Options) : List Key := path

/-- Item id computed for a remove or replace patch (the shared id logic of
src/src/patches.ts): requires an extractor for the path, a defined old
value, and a defined, non-null extracted id. -/
def computeId (opts : Options) (path : List Key) (oldValue : Val) : Option Val :=
  match findGetItemIdFn path opts.getItemId with
  | none => none
  | some f =>
      if oldValue = .undef then none
      else
        let i := f oldValue
        if i = .undef ∨ i = .nul then none else some i

/-- Patch record built by generateSetPatch / generateReplacePatch. -/
def mkReplace (opts : Options) (path : List Key) (value oldValue : Val) : Patch :=
  { op := .replace, path := formatPath path opts, value := some (cloneIfNeeded value),
    id := computeId opts path oldValue }

/-- Patch record built by generateAddPatch. -/
def mkAdd (opts : Options) (path : List Key) (value : Val) : Patch :=
  { op := .add, path := formatPath path opts, value := some (cloneIfNeeded value) }

/-- Patch record built by generateDeletePatch. -/
def mkRemove (opts : Options) (path : List Key) (oldValue : Val) : Patch :=
  { op := .remove, path := formatPath path opts, id := computeId opts path oldValue }

/-- Session state: the root structure (mutated in place), the accumulated
patch list, and the options. -/
structure RecState where
  root : Val
  patches : List Patch
  options : Options

def generateSetPatch (st : RecState) (path : List Key) (oldValue newValue : Val) : RecState :=
  { st with patches := st.patches ++ [mkReplace st.options path newValue oldValue] }

def generateDeletePatch (st : RecState) (path : List Key) (oldValue : Val) : RecState :=
  { st with patches := st.patches ++ [mkRemove st.options path oldValue] }

def generateAddPatch (st : RecState) (path : List Key) (value : Val) : RecState :=
  { st with patches := st.patches ++ [mkAdd st.options path value] }

def generateReplacePatch (st : RecState) (path : List Key) (value oldValue : Val) : RecState :=
  { st with patches := st.patches ++ [mkReplace st.options path value oldValue] }

/-! ## Mutation interceptor (src/src/proxy.ts set and deleteProperty traps)

A wrapper is identified by the path of the container it wraps; the container
itself is recovered by `navWrap` and written back by `updateWrap`, which
models mutation in place of the aliased structure. A step that the source
performs by throwing is an `Except.error`. -/

/-- The add-versus-replace classification of the set trap (src/src/proxy.ts
lines 90-106): when the walked original is truthy, a sequence with a numeric
key is classified by the index being within the current bounds, and anything
else by own-key presence; otherwise the property counts as absent. Returns
the presence flag together with the original value read for the id. -/
def classifyOriginal (currentOriginal : Val) (prop : Key) : Bool × Val :=
  if truthy currentOriginal then
    match currentOriginal, prop with
    | .arr l, .num n =>
        (decide (0 ≤ n) && decide (n.toNat < l.length), getPropRaw (.arr l) (.num n))
    | co, p => (hasOwnProp co p, getPropRaw co p)
  else (false, .undef)

/-- The set trap (src/src/proxy.ts lines 50-119). Order of checks follows
the source: hash-map / hash-set guard, symbol skip, no-op short-circuit
(identity comparison with NaN equal to itself, and absent-key check for an
undefined value), walk of the original state for the add-versus-replace
classification, mutation, emission. -/
def setTrap (st : RecState) (path : List Key) (prop : Key) (value : Val) : Except String RecState :=
  match navWrap st.root path with
  | none => .error "invalid wrapper target"
  | some obj =>
    match obj with
    | .vmap _ => .error "Map/Set draft does not support any property assignment."
    | .vset _ => .error "Map/Set draft does not support any property assignment."
    | _ =>
      let oldValue := getPropRaw obj prop
      match prop with
      | .sym _ => .ok { st with root := updateWrap st.root path (setPropRaw obj prop value) }
      | _ =>
        let propPath := path ++ [prop]
        if beqV oldValue value && (decide (value ≠ .undef) || hasOwnProp obj prop) then
          .ok st
        else
          let classified := classifyOriginal (navigateOriginal st.root path) prop
          let st1 := { st with root := updateWrap st.root path (setPropRaw obj prop value) }
          if classified.1 then .ok (generateSetPatch st1 propPath classified.2 value)
          else .ok (generateAddPatch st1 propPath value)

/-- The deleteProperty trap (src/src/proxy.ts lines 121-150): a sequence
delete re-enters the set trap with an undefined value; a hash-map / hash-set
delete is an error; a symbol delete mutates silently; a plain delete of a
present (or defined) key removes it and emits a remove patch with the
pre-deletion value for the id, and deleting an absent key is a silent no-op. -/
def deleteTrap (st : RecState) (path : List Key) (prop : Key) : Except String RecState :=
  match navWrap st.root path with
  | none => .error "invalid wrapper target"
  | some obj =>
    match obj with
    | .arr _ => setTrap st path prop .undef
    | .vmap _ => .error "Map/Set draft does not support deleteProperty."
    | .vset _ => .error "Map/Set draft does not support deleteProperty."
    | _ =>
      let oldValue := getPropRaw obj prop
      match prop with
      | .sym _ => .ok { st with root := updateWrap st.root path (deletePropRaw obj prop) }
      | _ =>
        let propPath := path ++ [prop]
        if oldValue ≠ .undef ∨ hasOwnProp obj prop then
          .ok (generateDeletePatch
            { st with root := updateWrap st.root path (deletePropRaw obj prop) }
            propPath oldValue)
        else .ok st

/-! ## Hash-map handler (src/src/maps.ts) -/

/-- The wrapped map set method (src/src/maps.ts lines 23-43): presence of
the key is decided by keyExistsInOriginal on the session root at the current
path; the current value is read (the source computes it but never hands it
to generateReplacePatch, whose old-value argument is therefore omitted,
modelled by the explicit undefined below); the entry is written; a replace
or add patch is emitted with a cloned value. -/
def mapSet (st : RecState) (path : List Key) (key : Key) (value : Val) : Except String RecState :=
  match navWrap st.root path with
  | some (.vmap entries) =>
      let existed := keyExistsInOriginal st.root path key
      let _oldValue := (entries.lookup? key).getD .undef
      let st1 := { st with root := updateWrap st.root path (.vmap (entries.setKey key value)) }
      let itemPath := path ++ [key]
      if existed then .ok (generateReplacePatch st1 itemPath (cloneIfNeeded value) .undef)
      else .ok (generateAddPatch st1 itemPath (cloneIfNeeded value))
  | some _ => .error "not a hash-map wrapper"
  | none => .error "invalid wrapper target"

/-- The wrapped map delete method (src/src/maps.ts lines 45-57): when the
live map has the key, the entry is removed and a remove patch is emitted
with the cloned removed value for the id; otherwise a silent no-op. -/
def mapDelete (st : RecState) (path : List Key) (key : Key) : Except String RecState :=
  match navWrap st.root path with
  | some (.vmap entries) =>
      let oldValue := (entries.lookup? key).getD .undef
      if entries.hasKey key then
        .ok (generateDeletePatch
          { st with root := updateWrap st.root path (.vmap (entries.removeKey key)) }
          (path ++ [key]) (cloneIfNeeded oldValue))
      else .ok st
  | some _ => .error "not a hash-map wrapper"
  | none => .error "invalid wrapper target"

/-! ## Ordered-sequence splice handler (src/unnamed/part_004) -/

/-- Element access within the handler loops, `items[i]`: undefined out of
range (including negative indices). -/
def jsListGet (l : List Val) (i : Int) : Val :=
  if 0 ≤ i then ((l.get? i.toNat).getD .undef) else (.undef)

/-- Numeric loop emulation helpers: the splice case iterates integer loop
counters that the source does not clamp, so each loop runs
max(bound - base, 0) times. -/
def intRange (base bound : Int) : List Int :=
  (List.range (max (bound - base) 0).toNat).map (fun (j : Nat) => base + (j : Int))

/-- The splice case of generateArrayPatches (src/unnamed/part_004 lines
142-169): with actualStart and actualDeleteCount computed as in the source
and minCount their overlap with the inserted items, emit a replace for every
overlapping index (old-value-for-id the deleted element), then an add for
every remaining inserted item, then removes for the remaining deleted
indices from the highest down to minCount. -/
def spliceEmit (st : RecState) (path : List Key) (start deleteCount : Int)
    (addItems deletedElements : List Val) (oldLength : Int) : RecState :=
  let actualStart : Int := if start < 0 then max (oldLength + start) 0 else min start oldLength
  let actualDeleteCount : Int := min deleteCount (oldLength - actualStart)
  let minCount : Int := min actualDeleteCount (addItems.length : Int)
  let replaces := (intRange 0 minCount).map (fun i =>
      mkReplace st.options (path ++ [.num (actualStart + i)])
        (jsListGet addItems i) (jsListGet deletedElements i))
  let adds := (intRange minCount (addItems.length : Int)).map (fun i =>
      mkAdd st.options (path ++ [.num (actualStart + i)]) (jsListGet addItems i))
  let removes := (intRange minCount actualDeleteCount).reverse.map (fun i =>
      mkRemove st.options (path ++ [.num (actualStart + i)]) (jsListGet deletedElements i))
  { st with patches := st.patches ++ (replaces ++ (adds ++ removes)) }

/-- A splice call on a sequence wrapper (src/unnamed/part_004 handleArrayGet
mutating branch): the host splice is applied to the live sequence (with the
host clamping of start and of a negative delete count), and the handler
emits patches from the argument list, the returned deleted elements and the
pre-mutation length. -/
def spliceStep (st : RecState) (path : List Key) (start deleteCount : Int)
    (items : List Val) : Except String RecState :=
  match navWrap st.root path with
  | some (.arr l) =>
      let elems := l.toList
      let oldLength : Int := (elems.length : Int)
      let startSpec : Nat := (if start < 0 then max (oldLength + start) 0
                              else min start oldLength).toNat
      let delSpec : Nat := (min (max deleteCount 0) (oldLength - startSpec)).toNat
      let deleted : List Val := (elems.drop startSpec).take delSpec
      let newElems : List Val :=
        elems.take startSpec ++ items ++ elems.drop (startSpec + delSpec)
      let st1 := { st with root := updateWrap st.root path (.arr (Vals.ofList newElems)) }
      .ok (spliceEmit st1 path start deleteCount items deleted oldLength)
  | some _ => .error "not a sequence wrapper"
  | none => .error "invalid wrapper target"

/-! ## Session runner (src/src/index.ts recordPatches) -/

/-- One mutation performed by the callback through the wrapper tree. -/
inductive SessionOp where
  | write (path : List Key) (prop : Key) (value : Val)
  | deleteKey (path : List Key) (prop : Key)
  | mapSetOp (path : List Key) (key : Key) (value : Val)
  | mapDeleteOp (path : List Key) (key : Key)
  | spliceOp (path : List Key) (start deleteCount : Int) (items : List Val)

def runOp (st : RecState) : SessionOp → Except String RecState
  | .write p k v => setTrap st p k v
  | .deleteKey p k => deleteTrap st p k
  | .mapSetOp p k v => mapSet st p k v
  | .mapDeleteOp p k => mapDelete st p k
  | .spliceOp p s d items => spliceStep st p s d items

/-- Run the mutation callback: the first raised error aborts the whole
session (src/src/index.ts does not catch; the patch list is never returned
on error). -/
def runOps (st : RecState) : List SessionOp → Except String RecState
  | [] => .ok st
  | op :: tl =>
      match runOp st op with
      | .ok st1 => runOps st1 tl
      | .error e => .error e

/-! ## Compressor (src/src/optimizer.ts) -/

/-- Result of merging two same-path patches: a merged patch, cancellation
(JS null), or inability to merge (JS undefined). -/
inductive MergeResult where
  | merged (p : Patch)
  | cancel
  | cantMerge
deriving DecidableEq

/-- The merge table (src/src/optimizer.ts mergePatches, lines 280-336).
Same-value detection is the reference comparison of the source, modelled by
structural equality. Two adds with different values fall through the same-op
block and reach the final inability-to-merge return. -/
def mergePatches (patch1 patch2 : Patch) : MergeResult :=
  let sameOp : Option MergeResult :=
    if patch1.op = patch2.op then
      if patch1.op = .replace then
        some (if patch1.value = patch2.value then .merged patch1 else .merged patch2)
      else if patch1.op = .add ∧ patch1.value = patch2.value then
        some (.merged patch1)
      else if patch1.op = .remove then
        some .cantMerge
      else none
    else none
  match sameOp with
  | some r => r
  | none =>
      if patch1.op = .add ∧ patch2.op = .replace then .merged patch2
      else if patch1.op = .replace ∧ patch2.op = .replace then .merged patch2
      else if patch1.op = .replace ∧ patch2.op = .remove then .merged patch2
      else if patch1.op = .add ∧ patch2.op = .remove then .cancel
      else if patch1.op = .remove ∧ patch2.op = .add then
        .merged { op := .replace, path := patch1.path, value := patch2.value }
      else .cantMerge

/-- The per-path update of the compression loop (src/src/optimizer.ts lines
65-89): the first patch on a path is stored; later ones are merged with the
stored one, cancellation clears the slot, and an unmergeable pair keeps the
newest patch. -/
def mergeStep (existing : Option Patch) (patch : Patch) : Option Patch :=
  match existing with
  | none => some patch
  | some ex =>
      match mergePatches ex patch with
      | .merged m => some m
      | .cancel => none
      | .cantMerge => some patch

mutual
/-- Node of the nested-map path tree (src/src/optimizer.ts PathNode): an
optional stored patch and the children in key-insertion order. -/
inductive PathNode where
  | mk (patch : Option Patch) (children : Forest)

/-- Spine type for the insertion-ordered children map of a path-tree node. -/
inductive Forest where
  | nil
  | cons (k : Key) (n : PathNode) (tl : Forest)
end

def PathNode.patch : PathNode → Option Patch
  | .mk p _ => p

def PathNode.children : PathNode → Forest
  | .mk _ ch => ch

def emptyNode : PathNode := .mk none .nil

/-- Child lookup in the children map. -/
def forestGet? : Forest → Key → Option PathNode
  | .nil, _ => none
  | .cons k0 n tl, k => if k0 = k then some n else forestGet? tl k

/-- Child update in the children map: an existing key keeps its position, a
new key is appended at the end (JS Map set semantics). -/
def forestSet : Forest → Key → PathNode → Forest
  | .nil, k, n => .cons k n .nil
  | .cons k0 n0 tl, k, n =>
      if k0 = k then .cons k0 n tl else .cons k0 n0 (forestSet tl k n)

/-- Walk to the node of a path, creating missing nodes on the way
(getOrCreateNode), and update its stored patch with mergeStep: the body of
the compression loop. -/
def applyPatchAt : PathNode → List Key → Patch → PathNode
  | .mk p ch, [], patch => .mk (mergeStep p patch) ch
  | .mk p ch, k :: ks, patch =>
      .mk p (forestSet ch k (applyPatchAt ((forestGet? ch k).getD emptyNode) ks patch))

mutual
/-- Collect the stored patches in depth-first pre-order, children in
insertion order (src/src/optimizer.ts collectPatches). -/
def collectNode : PathNode → List Patch
  | .mk p ch => (match p with | some x => [x] | none => []) ++ collectForest ch

def collectForest : Forest → List Patch
  | .nil => []
  | .cons _ n tl => collectNode n ++ collectForest tl
end

/-- The path tree built from a patch list by the compression loop. -/
def buildTree (patches : List Patch) : PathNode :=
  patches.foldl (fun t p => applyPatchAt t p.path p) emptyNode

/-- Key rendering of pathToKey (src/src/utils.ts): strings unchanged,
numbers via decimal rendering, symbols via their toString form. -/
def keyToStr : Key → String
  | .str s => s
  | .num n => toString n
  | .sym i => "Symbol(" ++ toString i ++ ")"

/-- Path-to-string key used by the post-processing passes (src/src/utils.ts
pathToKey): single-element paths render the element alone, longer paths join
the rendered elements with the null character. -/
def pathToKey : List Key → String
  | [] => ""
  | [k] => keyToStr k
  | p => String.intercalate "\x00" (p.map keyToStr)

def lastNum? (p : Patch) : Option Int :=
  match p.path.getLast? with
  | some (.num n) => some n
  | _ => none

def isNumLast (p : Patch) : Bool :=
  (lastNum? p).isSome

def isLengthLast (p : Patch) : Bool :=
  p.path.getLast? = some (.str "length")

/-- The host comparison `n >= v` for a patch value v: true only when v is a
number not exceeding n (a comparison against a non-numeric value is NaN and
therefore false). -/
def jsGEValue (n : Int) (v : Option Val) : Bool :=
  match v with
  | some (.int m) => decide (m ≤ n)
  | _ => false

def pushIdx (p : Patch) : Int := (lastNum? p).getD 0

/-- Stable descending insertion by trailing index, modelling the stable host
sort with comparator b - a. -/
def insertDesc : List Patch → Patch → List Patch
  | [], p => [p]
  | q :: tl, p => if pushIdx p ≤ pushIdx q then q :: insertDesc tl p else p :: q :: tl

def sortDescStable (l : List Patch) : List Patch := l.foldl insertDesc []

def addToGroup : List (String × List Patch) → String → Patch → List (String × List Patch)
  | [], k, p => [(k, [p])]
  | (k0, ps) :: tl, k, p =>
      if k0 = k then (k0, ps ++ [p]) :: tl else (k0, ps) :: addToGroup tl k p

/-- Group patches of path length at least two by the string key of their
parent path, in group-insertion order. -/
def groupByParent (patches : List Patch) : List (String × List Patch) :=
  patches.foldl (fun groups p =>
      if p.path.length < 2 then groups
      else addToGroup groups (pathToKey p.path.dropLast) p) []

/-- The cancelable pairs of one parent group (src/src/optimizer.ts lines
198-228): adds with a trailing numeric index sorted descending, length
replaces in order, pairs marked when the pushed index reaches the reported
shrunk length. -/
def pushPopCancelable (group : List Patch) : List Patch :=
  let pushPatches := sortDescStable (group.filter (fun p => p.op = .add ∧ isNumLast p))
  let popPatches := group.filter (fun p => p.op = .replace ∧ isLengthLast p)
  let cnt := min pushPatches.length popPatches.length
  (List.range cnt).foldl (fun acc i =>
      match pushPatches.get? i, popPatches.get? i with
      | some pushP, some popP =>
          if jsGEValue (pushIdx pushP) popP.value then acc ++ [pushP, popP] else acc
      | _, _ => acc) []

/-- Cancel matching sequence push and pop patches (src/src/optimizer.ts
cancelArrayPushPop). The source marks patches by reference in a WeakSet; in
the compressor pipeline every patch of the list carries a distinct path, so
structural membership coincides with reference marking. -/
def cancelArrayPushPop (patches : List Patch) : List Patch :=
  let groups := groupByParent patches
  let cancelable := groups.foldl (fun acc g => acc ++ pushPopCancelable g.2) []
  patches.filter (fun p => decide (p ∉ cancelable))

def assocSet : List (String × Option Val) → String → Option Val → List (String × Option Val)
  | [], k, v => [(k, v)]
  | (k0, v0) :: tl, k, v =>
      if k0 = k then (k0, v) :: tl else (k0, v0) :: assocSet tl k v

def assocGet? : List (String × Option Val) → String → Option (Option Val)
  | [], _ => none
  | (k0, v0) :: tl, k => if k0 = k then some v0 else assocGet? tl k

/-- Drop patches whose trailing numeric index reaches the final reported
length of their sequence (src/src/optimizer.ts cancelOutOfBoundsPatches). -/
def cancelOutOfBoundsPatches (patches : List Patch) : List Patch :=
  let arrayLengths := patches.foldl (fun m p =>
      if p.path.length ≥ 2 ∧ isLengthLast p then
        assocSet m (pathToKey p.path.dropLast) p.value
      else m) []
  patches.filter (fun p =>
      if p.path.length < 2 then true
      else
        match lastNum? p with
        | some n =>
            match assocGet? arrayLengths (pathToKey p.path.dropLast) with
            | some lenVal => ! jsGEValue n lenVal
            | none => true
        | none => true)

/-- The default compressor (src/src/optimizer.ts
compressPatchesWithNestedMaps): same-path merging through the path tree,
depth-first collection, then the push-pop cancellation and out-of-bounds
pruning passes. -/
def compressPatchesWithNestedMaps (patches : List Patch) : List Patch :=
  if patches.length = 0 then patches
  else
    let final1 := collectNode (buildTree patches)
    let final2 := cancelArrayPushPop final1
    cancelOutOfBoundsPatches final2

/-- The default export compressPatches. -/
def compressPatches : List Patch → List Patch := compressPatchesWithNestedMaps

/-- The entry point (src/src/index.ts recordPatches): run the callback ops
on the in-place state, then return the patches, compressed unless disabled.
The mutated root is returned alongside to let theorems speak about it (the
source mutates the caller value in place). -/
def recordPatches (root : Val) (ops : List SessionOp) (opts : Options) :
    Except String (Val × List Patch) :=
  match runOps { root := root, patches := [], options := opts } ops with
  | .ok st =>
      .ok (st.root, if opts.compressPatches then compressPatches st.patches else st.patches)
  | .error e => .error e

/-! ## Type guards (src/src/utils.ts) and claim-support definitions -/

/-- Type guard isArray. -/
def isArray : Val → Bool
  | .arr _ => true
  | _ => false

/-- Type guard isMap. -/
def isMap : Val → Bool
  | .vmap _ => true
  | _ => false

/-- Type guard isSet. -/
def isSet : Val → Bool
  | .vset _ => true
  | _ => false

/-- Type guard isObject: a plain container. -/
def isObject : Val → Bool
  | .obj _ => true
  | _ => false

def notSym : Key → Bool
  | .sym _ => false
  | _ => true

/-- The no-op short-circuit condition of the set trap (src/src/proxy.ts
lines 70-73): the new value is identical to the current one under the
identity comparison with NaN equal to itself, and the new value is defined
or the key is already a present own key. -/
def noOpCondition (obj : Val) (prop : Key) (v : Val) : Bool :=
  beqV (getPropRaw obj prop) v && (decide (v ≠ .undef) || hasOwnProp obj prop)

/-- A session operation that performs no observable change: a non-symbol
property write on a plain container or sequence wrapper whose value
satisfies the no-op condition. -/
def isNoOpWrite (root : Val) : SessionOp → Bool
  | .write path prop v =>
      match navWrap root path with
      | some obj =>
          (isObject obj || isArray obj) && notSym prop && noOpCondition obj prop v
      | none => false
  | _ => false

def allNoOpWrites (root : Val) : List SessionOp → Bool
  | [] => true
  | op :: tl => isNoOpWrite root op && allNoOpWrites root tl

/-- Formalization of the spec wording of absence for the add-versus-replace
classification (written from the claim, to be compared with the behavior of
the interceptor): for a sequence and a numeric key, the index is at or
beyond the current length; otherwise, the key is not a present own key of
the parent. -/
def specKeyAbsent (parent : Val) (k : Key) : Bool :=
  match parent, k with
  | .arr l, .num n => decide ((l.length : Int) ≤ n)
  | c, k0 => ! hasOwnProp c k0

/-- The raw walk performed by keyExistsInOriginal, as a partial navigation:
stop with no result upon an undefined or null intermediate. -/
def rawReach : Val → List Key → Option Val
  | v, [] => some v
  | v, k :: ks =>
      if v = .undef ∨ v = .nul then none
      else rawReach (getPropRaw v k) ks

/-- One patch occurs strictly before another in a list. -/
def Before : List Patch → Patch → Patch → Prop
  | [], _, _ => False
  | a :: t, p, q => (a = p ∧ q ∈ t) ∨ Before t p q

instance instDecidableBefore (p q : Patch) : ∀ l : List Patch, Decidable (Before l p q)
  | [] => .isFalse (by simp [Before])
  | a :: t =>
      have : Decidable (Before t p q) := instDecidableBefore p q t
      decidable_of_iff ((a = p ∧ q ∈ t) ∨ Before t p q) (by simp [Before])

/-- One key occurs strictly before another in a list. -/
def KeyBefore : List Key → Key → Key → Prop
  | [], _, _ => False
  | a :: t, k1, k2 => (a = k1 ∧ k2 ∈ t) ∨ KeyBefore t k1 k2

/-- The claim formalization of order preservation for distinct paths
(written from the claim, to be compared with the compressor): any two output
patches on distinct paths occur in the same relative order in the input. -/
def DistinctPathOrderKept (input output : List Patch) : Prop :=
  ∀ p q : Patch, Before output p q → p.path ≠ q.path → Before input p q

/-- Index of the first input patch whose path starts with a key. -/
def firstAt (l : List Patch) (k : Key) : Nat :=
  l.findIdx (fun p => p.path.head? == some k)

def forestKeys : Forest → List Key
  | .nil => []
  | .cons k _ tl => k :: forestKeys tl

/-- First keys of the patch paths, deduplicated keeping first occurrences,
appended to an accumulator: the key-creation order of the root children of
the path tree. -/
def headDedup (acc : List Key) : List Patch → List Key
  | [] => acc
  | p :: tl =>
      match p.path.head? with
      | none => headDedup acc tl
      | some k => headDedup (if k ∈ acc then acc else acc ++ [k]) tl

mutual
/-- Every patch stored in the node satisfies a property. -/
def NodeAll (P : Patch → Prop) : PathNode → Prop
  | .mk p ch => (∀ x, p = some x → P x) ∧ ForestAll P ch

def ForestAll (P : Patch → Prop) : Forest → Prop
  | .nil => True
  | .cons _ n tl => NodeAll P n ∧ ForestAll P tl
end

/-- Every subtree of the forest stores only patches whose path starts with
the key of its root child. -/
def ForestHeads : Forest → Prop
  | .nil => True
  | .cons k n tl => NodeAll (fun x => x.path.head? = some k) n ∧ ForestHeads tl

/-- The root node stores only patches with the empty path. -/
def RootEmptyPath (t : PathNode) : Prop :=
  ∀ x, t.patch = some x → x.path = []

/-! ## Concrete example values used by witnesses and counterexamples -/

/-- A root holding one hash-map with one entry: `\x7b map: Map\x7b a: 1 \x7d \x7d`. -/
def exMapRoot : Val :=
  .obj (.cons (.str "map") (.vmap (.cons (.str "a") (.int 1) .nil)) .nil)

/-- A root holding an object nested inside a hash-map:
`\x7b m: Map\x7b k: \x7b x: 1 \x7d \x7d \x7d`. -/
def exNestedMapRoot : Val :=
  .obj (.cons (.str "m")
    (.vmap (.cons (.str "k") (.obj (.cons (.str "x") (.int 1) .nil)) .nil)) .nil)

/-- A root holding a plain nested container: `\x7b user: \x7b name: "John" \x7d \x7d`. -/
def exUserRoot : Val :=
  .obj (.cons (.str "user") (.obj (.cons (.str "name") (.strV "John") .nil)) .nil)

/-- A root holding a five-element sequence: `\x7b items: [1,2,3,4,5] \x7d`. -/
def exItemsRoot : Val :=
  .obj (.cons (.str "items") (.arr (Vals.ofList [.int 1, .int 2, .int 3, .int 4, .int 5])) .nil)

/-- The pre-session entity value of the map id scenario of
test/getItemId.test.ts. -/
def exEntity : Val :=
  .obj (.cons (.str "internalId") (.strV "entity-1") (.cons (.str "data") (.strV "old") .nil))

/-- The replacement entity value of the same scenario. -/
def exEntityNew : Val :=
  .obj (.cons (.str "internalId") (.strV "entity-2") (.cons (.str "data") (.strV "new") .nil))

/-- A root holding `\x7b entityMap: Map\x7b key1: exEntity \x7d \x7d`. -/
def exEntityRoot : Val :=
  .obj (.cons (.str "entityMap") (.vmap (.cons (.str "key1") exEntity .nil)) .nil)

/-- The id-extractor configuration of the same scenario: entityMap entries
yield their internalId field. -/
def exIdConfig : IdConfig :=
  .node [("entityMap", .fn (fun v => getPropRaw v (.str "internalId")))]

/-- Three add patches whose compression exhibits the depth-first reordering:
paths a.x, b, a.y. -/
def exPatchA : Patch := { op := .add, path := [.str "a", .str "x"], value := some (.int 1) }

def exPatchB : Patch := { op := .add, path := [.str "b"], value := some (.int 2) }

def exPatchC : Patch := { op := .add, path := [.str "a", .str "y"], value := some (.int 3) }

/-! ## Helper lemmas -/

mutual
theorem cloneIfNeeded_id : ∀ v, cloneIfNeeded v = v
  | .undef => rfl
  | .nul => rfl
  | .boolV _ => rfl
  | .int _ => rfl
  | .nan => rfl
  | .strV _ => rfl
  | .exotic _ => rfl
  | .obj fs => by rw [cloneIfNeeded, cloneFields_id]
  | .arr l => by rw [cloneIfNeeded, cloneVals_id]
  | .vmap es => by rw [cloneIfNeeded, cloneFields_id]
  | .vset l => by rw [cloneIfNeeded, cloneVals_id]

theorem cloneVals_id : ∀ l, cloneVals l = l
  | .nil => rfl
  | .cons v tl => by rw [cloneVals, cloneIfNeeded_id, cloneVals_id]

theorem cloneFields_id : ∀ fs, cloneFields fs = fs
  | .nil => rfl
  | .cons k v tl => by rw [cloneFields, cloneIfNeeded_id, cloneFields_id]
end

theorem setTrap_appends {st : RecState} {path : List Key} {prop : Key} {v : Val}
    {st1 : RecState} (h : setTrap st path prop v = .ok st1) :
    ∃ ps, st1.patches = st.patches ++ ps := by
  unfold setTrap at h
  split at h
  · exact absurd h (by simp)
  · split at h
    · exact absurd h (by simp)
    · exact absurd h (by simp)
    · split at h
      · cases h; exact ⟨[], by simp⟩
      · dsimp only at h
        split at h
        · cases h; exact ⟨[], by simp⟩
        · split at h
          · cases h; exact ⟨_, rfl⟩
          · cases h; exact ⟨_, rfl⟩

theorem deleteTrap_appends {st : RecState} {path : List Key} {prop : Key}
    {st1 : RecState} (h : deleteTrap st path prop = .ok st1) :
    ∃ ps, st1.patches = st.patches ++ ps := by
  unfold deleteTrap at h
  split at h
  · exact absurd h (by simp)
  · split at h
    · exact setTrap_appends h
    · exact absurd h (by simp)
    · exact absurd h (by simp)
    · split at h
      · cases h; exact ⟨[], by simp⟩
      · dsimp only at h
        split at h
        · cases h; exact ⟨_, rfl⟩
        · cases h; exact ⟨[], by simp⟩

theorem mapSet_appends {st : RecState} {path : List Key} {key : Key} {v : Val}
    {st1 : RecState} (h : mapSet st path key v = .ok st1) :
    ∃ ps, st1.patches = st.patches ++ ps := by
  unfold mapSet at h
  split at h
  · dsimp only at h
    split at h
    · cases h; exact ⟨_, rfl⟩
    · cases h; exact ⟨_, rfl⟩
  · exact absurd h (by simp)
  · exact absurd h (by simp)

theorem mapDelete_appends {st : RecState} {path : List Key} {key : Key}
    {st1 : RecState} (h : mapDelete st path key = .ok st1) :
    ∃ ps, st1.patches = st.patches ++ ps := by
  unfold mapDelete at h
  split at h
  · dsimp only at h
    split at h
    · cases h; exact ⟨_, rfl⟩
    · cases h; exact ⟨[], by simp⟩
  · exact absurd h (by simp)
  · exact absurd h (by simp)

theorem spliceStep_appends {st : RecState} {path : List Key} {s d : Int}
    {items : List Val} {st1 : RecState} (h : spliceStep st path s d items = .ok st1) :
    ∃ ps, st1.patches = st.patches ++ ps := by
  unfold spliceStep at h
  split at h
  · cases h; exact ⟨_, rfl⟩
  · exact absurd h (by simp)
  · exact absurd h (by simp)

theorem runOp_appends {st : RecState} {op : SessionOp} {st1 : RecState}
    (h : runOp st op = .ok st1) : ∃ ps, st1.patches = st.patches ++ ps := by
  cases op with
  | write p k v => exact setTrap_appends h
  | deleteKey p k => exact deleteTrap_appends h
  | mapSetOp p k v => exact mapSet_appends h
  | mapDeleteOp p k => exact mapDelete_appends h
  | spliceOp p s d items => exact spliceStep_appends h

/-! ## Claims -/

/-- C7: every patch value is deep-cloned at emission time: the add and
replace emitters store cloneIfNeeded of the written value, the clone
recurses through ordered sequences, hash-maps, hash-sets and plain
containers and passes every other value through by reference (it is the
identity on content), and every further session operation only appends to
the patch list, so mutating the live structure after a patch has been
emitted leaves that patch unchanged. -/
theorem c7_clone_at_emission :
    (∀ v, cloneIfNeeded v = v) ∧
    (∀ l, cloneIfNeeded (.arr l) = .arr (cloneVals l)) ∧
    (∀ es, cloneIfNeeded (.vmap es) = .vmap (cloneFields es)) ∧
    (∀ l, cloneIfNeeded (.vset l) = .vset (cloneVals l)) ∧
    (∀ fs, cloneIfNeeded (.obj fs) = .obj (cloneFields fs)) ∧
    (∀ v tl, cloneVals (.cons v tl) = .cons (cloneIfNeeded v) (cloneVals tl)) ∧
    (∀ k v tl, cloneFields (.cons k v tl) = .cons k (cloneIfNeeded v) (cloneFields tl)) ∧
    (∀ i, cloneIfNeeded (.exotic i) = .exotic i) ∧
    (∀ st path v, (generateAddPatch st path v).patches =
        st.patches ++ [{ op := .add, path := path, value := some (cloneIfNeeded v) }]) ∧
    (∀ st path v ov, (generateReplacePatch st path v ov).patches =
        st.patches ++ [{ op := .replace, path := path, value := some (cloneIfNeeded v),
                         id := computeId st.options path ov }]) ∧
    (∀ st op st1, runOp st op = .ok st1 → ∃ ps, st1.patches = st.patches ++ ps) :=
  ⟨cloneIfNeeded_id, fun _ => rfl, fun _ => rfl, fun _ => rfl, fun _ => rfl,
   fun _ _ => rfl, fun _ _ _ => rfl, fun _ => rfl, fun _ _ _ => rfl, fun _ _ _ _ => rfl,
   fun _ _ _ h => runOp_appends h⟩

/-- Witness for C7 at a concrete session step: one write on the user
object appends exactly one patch. -/
theorem c7_clone_at_emission_witness :
    ∃ ps, (RecState.patches
        { root := .obj (.cons (.str "user") (.obj (.cons (.str "name") (.strV "Jane") .nil)) .nil),
          patches := [{ op := .replace, path := [.str "user", .str "name"],
                        value := some (.strV "Jane") }],
          options := {} }) =
      (RecState.patches { root := exUserRoot, patches := [], options := ({} : Options) }) ++ ps :=
  c7_clone_at_emission.2.2.2.2.2.2.2.2.2.2
    { root := exUserRoot, patches := [], options := {} }
    (.write [.str "user"] (.str "name") (.strV "Jane")) _ rfl

/-- C8: a direct property write and a direct property delete on a hash-map
or hash-set wrapper both raise immediately, and an error raised by any
operation aborts the whole session: the entry point returns the error and no
patch list. -/
theorem c8_map_set_wrapper_guard :
    (∀ (st : RecState) (path : List Key) (prop : Key) (v m : Val),
      navWrap st.root path = some m →
      (isMap m = true ∨ isSet m = true) →
      (∃ e, setTrap st path prop v = .error e) ∧
      (∃ e, deleteTrap st path prop = .error e)) ∧
    (∀ (root : Val) (ops : List SessionOp) (opts : Options) (e : String),
      runOps { root := root, patches := [], options := opts } ops = .error e →
      recordPatches root ops opts = .error e) := by
  constructor
  · intro st path prop v m hnav hms
    cases m <;> simp [isMap, isSet] at hms <;>
      exact ⟨⟨_, by unfold setTrap; rw [hnav]⟩, ⟨_, by unfold deleteTrap; rw [hnav]⟩⟩
  · intro root ops opts e h
    unfold recordPatches
    rw [h]

/-- Witness for C8: a write and a delete on the map wrapper of exMapRoot
raise, and the aborted session returns the error. -/
theorem c8_map_set_wrapper_guard_witness :
    ((∃ e, setTrap { root := exMapRoot, patches := [], options := {} } [.str "map"]
        (.str "x") (.int 1) = .error e) ∧
     (∃ e, deleteTrap { root := exMapRoot, patches := [], options := {} } [.str "map"]
        (.str "x") = .error e)) ∧
    recordPatches exMapRoot [.write [.str "map"] (.str "x") (.int 1)] {} =
      .error "Map/Set draft does not support any property assignment." :=
  ⟨c8_map_set_wrapper_guard.1
      { root := exMapRoot, patches := [], options := {} } [.str "map"] (.str "x") (.int 1)
      (.vmap (.cons (.str "a") (.int 1) .nil)) rfl (Or.inl rfl),
   c8_map_set_wrapper_guard.2 exMapRoot [.write [.str "map"] (.str "x") (.int 1)] {}
      "Map/Set draft does not support any property assignment." rfl⟩

/-- C10: a property write and a property delete with a symbol key on a
plain-container wrapper mutate the underlying container in place and leave
the patch list unchanged. -/
theorem c10_symbol_keys_silent :
    ∀ (st : RecState) (path : List Key) (i : Nat) (v : Val) (fs : Fields),
      navWrap st.root path = some (.obj fs) →
      setTrap st path (.sym i) v =
        .ok { st with root := updateWrap st.root path (.obj (fs.setKey (.sym i) v)) } ∧
      deleteTrap st path (.sym i) =
        .ok { st with root := updateWrap st.root path (.obj (fs.removeKey (.sym i))) } := by
  intro st path i v fs hnav
  constructor
  · unfold setTrap
    rw [hnav]
    rfl
  · unfold deleteTrap
    rw [hnav]
    rfl

/-- Witness for C10: a symbol write and delete on the root object of
exUserRoot mutate it and emit nothing. -/
theorem c10_symbol_keys_silent_witness :
    setTrap { root := exUserRoot, patches := [], options := {} } [] (.sym 0) (.int 5) =
      .ok { root := updateWrap exUserRoot []
              (.obj ((Fields.cons (.str "user")
                (.obj (.cons (.str "name") (.strV "John") .nil)) .nil).setKey (.sym 0) (.int 5))),
            patches := [], options := {} } ∧
    deleteTrap { root := exUserRoot, patches := [], options := {} } [] (.sym 0) =
      .ok { root := updateWrap exUserRoot []
              (.obj ((Fields.cons (.str "user")
                (.obj (.cons (.str "name") (.strV "John") .nil)) .nil).removeKey (.sym 0))),
            patches := [], options := {} } :=
  c10_symbol_keys_silent { root := exUserRoot, patches := [], options := {} } [] 0 (.int 5)
    (.cons (.str "user") (.obj (.cons (.str "name") (.strV "John") .nil)) .nil) rfl

/-- C9: the bug witnessed by test/getItemId.test.ts (map replace id). In the
scenario of that test, the map set on the pre-session-present key emits a
replace patch WITHOUT the id, because handleMapGet computes the old value
but never passes it to generateReplacePatch; the second conjunct shows the
id machinery itself would produce the expected id had the old value been
passed. -/
theorem c9_map_replace_id_missing :
    (recordPatches exEntityRoot
        [.mapSetOp [.str "entityMap"] (.str "key1") exEntityNew]
        { getItemId := some exIdConfig }).map (fun r => r.2.map (fun p => (p.op, p.id))) =
      .ok [(.replace, none)] ∧
    (mkReplace { getItemId := some exIdConfig } [.str "entityMap", .str "key1"]
        exEntityNew exEntity).id = some (.strV "entity-1") := by
  constructor
  · rfl
  · rfl

theorem collect_two_same_path (pth : List Key) (p1 p2 : Patch) :
    collectNode (applyPatchAt (applyPatchAt emptyNode pth p1) pth p2) =
      (mergeStep (mergeStep none p1) p2).toList := by
  induction pth with
  | nil =>
      simp [emptyNode, applyPatchAt, collectNode, collectForest]
      cases mergeStep (mergeStep none p1) p2 <;> rfl
  | cons k ks ih =>
      simpa [emptyNode, applyPatchAt, forestSet, forestGet?, collectNode, collectForest] using ih

theorem cancelArrayPushPop_nil : cancelArrayPushPop [] = [] := rfl

theorem cancelOutOfBoundsPatches_nil : cancelOutOfBoundsPatches [] = [] := rfl

theorem pushPopCancelable_single (m : Patch) : pushPopCancelable [m] = [] := by
  unfold pushPopCancelable
  by_cases ha : m.op = .add ∧ isNumLast m = true
  · have hr : ¬ (m.op = .replace ∧ isLengthLast m = true) := by
      simp [ha.1]
    simp [ha, hr, sortDescStable, insertDesc]
  · simp [ha, sortDescStable]

theorem cancelArrayPushPop_single (m : Patch) : cancelArrayPushPop [m] = [m] := by
  unfold cancelArrayPushPop groupByParent
  by_cases h2 : m.path.length < 2
  · simp [h2]
  · simp [h2, addToGroup, pushPopCancelable_single]

theorem cancelOutOfBoundsPatches_single (m : Patch) : cancelOutOfBoundsPatches [m] = [m] := by
  unfold cancelOutOfBoundsPatches
  by_cases h2 : m.path.length < 2
  · have hge : ¬ (m.path.length ≥ 2) := by omega
    simp [h2, hge]
  · cases hl : lastNum? m with
    | none => simp [h2, hl]
    | some n =>
        have hll : isLengthLast m = false := by
          unfold isLengthLast
          unfold lastNum? at hl
          cases hgl : m.path.getLast? with
          | none => simp [hgl]
          | some k =>
              rw [hgl] at hl
              cases k <;> simp_all
        simp [h2, hl, hll, assocGet?]

/-- C2: the merge table cancels an add followed by a remove and merges a
remove followed by an add into a single replace carrying the incoming add
value; accordingly the compressor returns no patch for an add-remove pair on
one path, and a single replace patch for a remove-add pair. -/
theorem c2_merge_cancel_and_replace :
    (∀ p1 p2 : Patch, p1.op = .add → p2.op = .remove → mergePatches p1 p2 = .cancel) ∧
    (∀ p1 p2 : Patch, p1.op = .remove → p2.op = .add →
      mergePatches p1 p2 = .merged { op := .replace, path := p1.path, value := p2.value }) ∧
    (∀ (pth : List Key) (v id1 id2 : Option Val),
      compressPatchesWithNestedMaps
          [{ op := .add, path := pth, value := v, id := id1 },
           { op := .remove, path := pth, id := id2 }] = [] ∧
      compressPatchesWithNestedMaps
          [{ op := .remove, path := pth, id := id2 },
           { op := .add, path := pth, value := v, id := id1 }] =
        [{ op := .replace, path := pth, value := v }]) := by
  refine ⟨?_, ?_, ?_⟩
  · intro p1 p2 h1 h2
    unfold mergePatches
    simp [h1, h2]
  · intro p1 p2 h1 h2
    unfold mergePatches
    simp [h1, h2]
  · intro pth v id1 id2
    constructor
    · unfold compressPatchesWithNestedMaps
      simp [buildTree, collect_two_same_path, mergeStep, mergePatches,
        cancelArrayPushPop_nil, cancelOutOfBoundsPatches_nil,
        cancelArrayPushPop_single, cancelOutOfBoundsPatches_single]
    · unfold compressPatchesWithNestedMaps
      simp [buildTree, collect_two_same_path, mergeStep, mergePatches,
        cancelArrayPushPop_nil, cancelOutOfBoundsPatches_nil,
        cancelArrayPushPop_single, cancelOutOfBoundsPatches_single]

/-- Witness for C2 at concrete patches: an add-remove pair on path p
cancels in the merge table and in the compressor, and a remove-add pair
merges to a replace. -/
theorem c2_merge_cancel_and_replace_witness :
    mergePatches { op := .add, path := [.str "p"], value := some (.int 1) }
        { op := .remove, path := [.str "p"] } = .cancel ∧
    mergePatches { op := .remove, path := [.str "p"] }
        { op := .add, path := [.str "p"], value := some (.int 7) } =
      .merged { op := .replace, path := [.str "p"], value := some (.int 7) } ∧
    compressPatchesWithNestedMaps
        [{ op := .remove, path := [.str "p"] },
         { op := .add, path := [.str "p"], value := some (.int 7) }] =
      [{ op := .replace, path := [.str "p"], value := some (.int 7) }] :=
  ⟨c2_merge_cancel_and_replace.1 _ _ rfl rfl,
   c2_merge_cancel_and_replace.2.1 _ _ rfl rfl,
   (c2_merge_cancel_and_replace.2.2 [.str "p"] (some (.int 7)) none none).2⟩

theorem keyExists_of_rawReach {root : Val} {path : List Key} {m : Fields} (key : Key)
    (h : rawReach root path = some (.vmap m)) :
    keyExistsInOriginal root path key = m.hasKey key := by
  induction path generalizing root with
  | nil =>
      unfold rawReach at h
      cases h
      rfl
  | cons k ks ih =>
      unfold rawReach at h
      unfold keyExistsInOriginal
      split at h
      · exact absurd h (by simp)
      · next hnn =>
          rw [if_neg hnn]
          exact ih h

/-- C3 counterexample: with the pre-session map holding key a, deleting a
and then setting a again in the same session emits remove followed by ADD,
not replace: there is no pre-session snapshot, the classification helper
walks the same in-place mutated structure, so it sees the live key set. -/
theorem c3_counterexample :
    (runOps { root := exMapRoot, patches := [], options := { compressPatches := false } }
        [.mapDeleteOp [.str "map"] (.str "a"),
         .mapSetOp [.str "map"] (.str "a") (.int 2)]).map
        (fun st => st.patches.map Patch.op) = .ok [.remove, .add] ∧
    Fields.hasKey (.cons (.str "a") (.int 1) .nil) (.str "a") = true :=
  ⟨rfl, rfl⟩

/-- C3 as amended: the add-versus-replace classification of a map set
consults the map reached by walking the session root (the structure mutated
in place) by raw property access at the current path - that is, the live map
immediately before the set: a replace patch is emitted exactly when the key
is present in the live map, an add patch otherwise, always with the cloned
new value and never with an id. -/
theorem c3_amended :
    ∀ (st : RecState) (path : List Key) (key : Key) (v : Val) (m : Fields),
      navWrap st.root path = some (.vmap m) →
      rawReach st.root path = some (.vmap m) →
      mapSet st path key v = .ok
        { root := updateWrap st.root path (.vmap (m.setKey key v)),
          patches := st.patches ++
            [if m.hasKey key then
               mkReplace st.options (path ++ [key]) (cloneIfNeeded v) .undef
             else mkAdd st.options (path ++ [key]) (cloneIfNeeded v)],
          options := st.options } := by
  intro st path key v m hnav hraw
  unfold mapSet
  rw [hnav]
  have hk := keyExists_of_rawReach key hraw
  dsimp only
  rw [hk]
  by_cases hkey : m.hasKey key = true
  · simp [hkey, generateReplacePatch]
  · simp [hkey, generateAddPatch]

/-- Witness for C3 as amended: setting the absent key b on the map of
exMapRoot emits one add patch. -/
theorem c3_amended_witness :
    mapSet { root := exMapRoot, patches := [], options := {} } [.str "map"] (.str "b")
        (.int 2) = .ok
      { root := updateWrap exMapRoot [.str "map"]
          (.vmap ((Fields.cons (.str "a") (.int 1) .nil).setKey (.str "b") (.int 2))),
        patches := [] ++
          [if (Fields.cons (.str "a") (.int 1) .nil).hasKey (.str "b") then
             mkReplace {} ([.str "map"] ++ [.str "b"]) (cloneIfNeeded (.int 2)) .undef
           else mkAdd {} ([.str "map"] ++ [.str "b"]) (cloneIfNeeded (.int 2))],
        options := {} } :=
  c3_amended { root := exMapRoot, patches := [], options := {} } [.str "map"] (.str "b")
    (.int 2) (.cons (.str "a") (.int 1) .nil) rfl rfl

theorem classify_matches_spec (parent : Val) (prop : Key)
    (hc : isObject parent = true ∨ isArray parent = true)
    (hn : ∀ n : Int, prop = .num n → 0 ≤ n) :
    (classifyOriginal parent prop).1 = ! specKeyAbsent parent prop := by
  cases parent with
  | obj fs =>
      cases prop <;> simp [classifyOriginal, truthy, specKeyAbsent]
  | arr l =>
      cases prop with
      | num n =>
          have h0 : (0 : Int) ≤ n := hn n rfl
          by_cases hlt : n.toNat < l.length
          · have hns : ¬ ((l.length : Int) ≤ n) := by omega
            simp [classifyOriginal, truthy, specKeyAbsent, h0, hlt, hns]
          · have hns : (l.length : Int) ≤ n := by omega
            simp [classifyOriginal, truthy, specKeyAbsent, h0, hlt, hns]
      | str s => simp [classifyOriginal, truthy, specKeyAbsent]
      | sym i => simp [classifyOriginal, truthy, specKeyAbsent]
  | _ => simp [isObject, isArray] at hc

/-- C1 counterexample: in exNestedMapRoot the parent container at path m.k
is the object with present key x, yet writing x through its wrapper emits an
ADD patch: the original-state walk of the set trap steps by raw property
access and a hash-map on the path yields undefined there, so the
classification falls back to absent. The claim demands replace. -/
theorem c1_counterexample :
    (setTrap { root := exNestedMapRoot, patches := [], options := {} }
        [.str "m", .str "k"] (.str "x") (.int 2)).map
        (fun st => st.patches.map Patch.op) = .ok [.add] ∧
    navWrap exNestedMapRoot [.str "m", .str "k"] =
      some (.obj (.cons (.str "x") (.int 1) .nil)) ∧
    hasOwnProp (.obj (.cons (.str "x") (.int 1) .nil)) (.str "x") = true :=
  ⟨rfl, rfl, rfl⟩

/-- C1 as amended: when the original-state walk reaches the same plain
container or sequence that the wrapper wraps (in particular whenever the
path from the root passes only through plain containers and sequences), an
emitted patch is an add exactly when the trailing key was absent from the
parent immediately before the write (for sequences with a numeric key: the
index was at or beyond the current length), and a replace otherwise; when
the walk is cut short by a hash-map, hash-set or missing intermediate, the
write is classified add unconditionally (see the counterexample). -/
theorem c1_amended :
    ∀ (st : RecState) (path : List Key) (prop : Key) (v : Val) (parent : Val)
      (st1 : RecState) (p : Patch),
      navWrap st.root path = some parent →
      navigateOriginal st.root path = parent →
      (isObject parent = true ∨ isArray parent = true) →
      (∀ n : Int, prop = .num n → 0 ≤ n) →
      setTrap st path prop v = .ok st1 →
      st1.patches = st.patches ++ [p] →
      (p.op = .add ↔ specKeyAbsent parent prop = true) := by
  intro st path prop v parent st1 p hnav horig hc hn hset hpat
  have hclass := classify_matches_spec parent prop hc hn
  unfold setTrap at hset
  rw [hnav, horig] at hset
  dsimp only at hset
  split at hset
  · simp [isObject, isArray] at hc
  · simp [isObject, isArray] at hc
  · split at hset
    · cases hset
      simp at hpat
    · split at hset
      · cases hset
        simp at hpat
      · split at hset
        · next hcl =>
            cases hset
            simp only [generateSetPatch, RecState.patches] at hpat
            have hp : mkReplace st.options (path ++ [prop]) v
                ((classifyOriginal parent prop).2) = p := by
              simpa using hpat
            have hop : p.op = .replace := by rw [← hp]; rfl
            have hspec : specKeyAbsent parent prop = false := by
              rw [hcl] at hclass
              simpa using hclass.symm
            simp [hop, hspec]
        · next hcl =>
            cases hset
            simp only [generateAddPatch, RecState.patches] at hpat
            have hp : mkAdd st.options (path ++ [prop]) v = p := by
              simpa using hpat
            have hop : p.op = .add := by rw [← hp]; rfl
            have hcl2 : (classifyOriginal parent prop).1 = false := by
              simpa using hcl
            have hspec : specKeyAbsent parent prop = true := by
              rw [hcl2] at hclass
              simpa using hclass.symm
            simp [hop, hspec]

/-- Witness for C1 as amended: a write to the present key name of the user
object yields a patch whose op is not add, matching presence. -/
theorem c1_amended_witness :
    (Op.replace = Op.add ↔
      specKeyAbsent (.obj (.cons (.str "name") (.strV "John") .nil)) (.str "name") = true) := by
  have h := c1_amended { root := exUserRoot, patches := [], options := {} }
    [.str "user"] (.str "name") (.strV "Jane")
    (.obj (.cons (.str "name") (.strV "John") .nil))
    { root := .obj (.cons (.str "user")
        (.obj (.cons (.str "name") (.strV "Jane") .nil)) .nil),
      patches := [{ op := .replace, path := [.str "user", .str "name"],
                    value := some (.strV "Jane") }],
      options := {} }
    { op := .replace, path := [.str "user", .str "name"], value := some (.strV "Jane") }
    rfl rfl (Or.inl rfl) (fun n h => by cases h) rfl rfl
  simpa using h

theorem setTrap_noop {st : RecState} {path : List Key} {prop : Key} {v obj : Val}
    (hnav : navWrap st.root path = some obj)
    (hm : isMap obj = false) (hs : isSet obj = false)
    (hns : notSym prop = true)
    (hcond : noOpCondition obj prop v = true) :
    setTrap st path prop v = .ok st := by
  unfold setTrap
  rw [hnav]
  dsimp only
  split
  · simp [isMap] at hm
  · simp [isSet] at hs
  · split
    · simp [notSym] at hns
    · unfold noOpCondition at hcond
      rw [if_pos hcond]

theorem setTrap_not_id {st : RecState} {path : List Key} {prop : Key} {v obj : Val}
    (hnav : navWrap st.root path = some obj)
    (hm : isMap obj = false) (hs : isSet obj = false)
    (hns : notSym prop = true)
    (hcond : noOpCondition obj prop v = false) :
    setTrap st path prop v ≠ .ok st := by
  unfold setTrap
  rw [hnav]
  dsimp only
  split
  · simp [isMap] at hm
  · simp [isSet] at hs
  · split
    · simp [notSym] at hns
    · unfold noOpCondition at hcond
      rw [if_neg (by rw [hcond]; simp)]
      split <;>
        · intro hset
          have hp := congrArg RecState.patches (Except.ok.inj hset)
          have hlen := congrArg List.length hp
          simp [generateSetPatch, generateAddPatch] at hlen

theorem notMapSet_of_objArr {obj : Val} (hc : isObject obj = true ∨ isArray obj = true) :
    isMap obj = false ∧ isSet obj = false := by
  rcases hc with h | h <;> cases obj <;> simp_all [isObject, isArray, isMap, isSet]

theorem runOps_noop {ops : List SessionOp} {st : RecState}
    (h : allNoOpWrites st.root ops = true) : runOps st ops = .ok st := by
  induction ops with
  | nil => rfl
  | cons op tl ih =>
      unfold allNoOpWrites at h
      rw [Bool.and_eq_true] at h
      obtain ⟨h1, h2⟩ := h
      cases op with
      | write path prop v =>
          simp only [isNoOpWrite] at h1
          unfold runOps
          split at h1
          · next obj hobj =>
              rw [Bool.and_eq_true, Bool.and_eq_true] at h1
              have hc : isObject obj = true ∨ isArray obj = true := by
                rcases Bool.or_eq_true _ _ |>.mp h1.1.1 with h | h
                · exact Or.inl h
                · exact Or.inr h
              have hms := notMapSet_of_objArr hc
              rw [show runOp st (.write path prop v) = setTrap st path prop v from rfl,
                setTrap_noop hobj hms.1 hms.2 h1.1.2 h1.2]
              exact ih h2
          · exact absurd h1 (by simp)
      | deleteKey path prop => exact absurd h1 (by simp [isNoOpWrite])
      | mapSetOp path key v => exact absurd h1 (by simp [isNoOpWrite])
      | mapDeleteOp path key => exact absurd h1 (by simp [isNoOpWrite])
      | spliceOp path s d items => exact absurd h1 (by simp [isNoOpWrite])

/-- C6: a session consisting only of writes that perform no observable
change returns an empty patch list and leaves the structure unchanged; and a
property write on a plain container or sequence wrapper is skipped silently
(the whole session state is returned unchanged) exactly when the new value
is identical to the current one under the identity comparison that treats
NaN as equal to itself, and the new value is defined or the key was already
present. -/
theorem c6_noop_writes :
    (∀ (root : Val) (ops : List SessionOp) (opts : Options),
      allNoOpWrites root ops = true → recordPatches root ops opts = .ok (root, [])) ∧
    (∀ (st : RecState) (path : List Key) (prop : Key) (v obj : Val),
      navWrap st.root path = some obj →
      (isObject obj = true ∨ isArray obj = true) →
      notSym prop = true →
      (setTrap st path prop v = .ok st ↔ noOpCondition obj prop v = true)) := by
  constructor
  · intro root ops opts h
    unfold recordPatches
    rw [runOps_noop h]
    cases hb : opts.compressPatches <;>
      simp [hb, compressPatches, compressPatchesWithNestedMaps]
  · intro st path prop v obj hnav hc hns
    have hms := notMapSet_of_objArr hc
    constructor
    · intro hset
      by_contra hcond
      have hcond2 : noOpCondition obj prop v = false := by simpa using hcond
      exact setTrap_not_id hnav hms.1 hms.2 hns hcond2 hset
    · intro hcond
      exact setTrap_noop hnav hms.1 hms.2 hns hcond

/-- Witness for C6: reassigning NaN to a key already holding NaN emits
nothing and leaves the structure unchanged, and the skip condition holds. -/
theorem c6_noop_writes_witness :
    recordPatches (.obj (.cons (.str "x") .nan .nil))
        [.write [] (.str "x") .nan] {} =
      .ok (.obj (.cons (.str "x") .nan .nil), []) ∧
    (setTrap { root := .obj (.cons (.str "x") .nan .nil), patches := [], options := {} }
        [] (.str "x") .nan =
        .ok { root := .obj (.cons (.str "x") .nan .nil), patches := [], options := {} } ↔
      noOpCondition (.obj (.cons (.str "x") .nan .nil)) (.str "x") .nan = true) :=
  ⟨c6_noop_writes.1 (.obj (.cons (.str "x") .nan .nil)) [.write [] (.str "x") .nan] {} rfl,
   c6_noop_writes.2 { root := .obj (.cons (.str "x") .nan .nil), patches := [], options := {} }
     [] (.str "x") .nan (.obj (.cons (.str "x") .nan .nil)) rfl (Or.inl rfl) rfl⟩

/-- C5: under in-bounds arguments (so that the host clamping is the
identity), a splice with minCount = min(deleteCount, items.length) emits,
in order: a replace at start+i with items[i] (old-value-for-id the i-th
deleted element) for i in [0, minCount); an add at start+i for i in
[minCount, items.length); and removes at start+i for i descending from
deleteCount-1 down to minCount. -/
theorem c5_splice_patches :
    ∀ (st : RecState) (path : List Key) (start deleteCount : Int) (items : List Val)
      (l : Vals),
      navWrap st.root path = some (.arr l) →
      0 ≤ start → 0 ≤ deleteCount → start + deleteCount ≤ (l.toList.length : Int) →
      (spliceStep st path start deleteCount items).map RecState.patches =
        .ok (st.patches ++
          ((List.range (min deleteCount.toNat items.length)).map (fun i =>
              mkReplace st.options (path ++ [.num (start + i)])
                (items.getD i .undef)
                (((l.toList.drop start.toNat).take deleteCount.toNat).getD i .undef)) ++
           ((List.range (items.length - min deleteCount.toNat items.length)).map (fun j =>
              mkAdd st.options
                (path ++ [.num (start + (min deleteCount.toNat items.length : Nat) + j)])
                (items.getD (min deleteCount.toNat items.length + j) .undef)) ++
            (List.range (deleteCount.toNat - min deleteCount.toNat items.length)).map
              (fun j =>
                mkRemove st.options (path ++ [.num (start + deleteCount - 1 - j)])
                  (((l.toList.drop start.toNat).take deleteCount.toNat).getD
                    (deleteCount.toNat - 1 - j) .undef))))) := by
  intro st path start deleteCount items l hnav h0s h0d hin
  unfold spliceStep
  rw [hnav]
  unfold spliceEmit
  have e1 : (if start < 0 then max ((l.toList.length : Int) + start) 0
      else min start (l.toList.length : Int)) = start := by
    rw [if_neg (by omega : ¬ start < 0)]
    omega
  have e3 : max deleteCount 0 = deleteCount := by omega
  have e4 : min deleteCount ((l.toList.length : Int) - start) = deleteCount := by omega
  simp only [Except.map, e1, Int.toNat_of_nonneg h0s, e3, e4]
  congr 1
  congr 1
  have hR : intRange 0 (min deleteCount (items.length : Int)) =
      (List.range (min deleteCount.toNat items.length)).map (fun (j : Nat) => (j : Int)) := by
    unfold intRange
    have hc : ((min deleteCount (items.length : Int) - 0) ⊔ 0).toNat =
        min deleteCount.toNat items.length := by omega
    rw [hc]
    apply List.map_congr_left
    intro j _
    omega
  have hA : intRange (min deleteCount (items.length : Int)) (items.length : Int) =
      (List.range (items.length - min deleteCount.toNat items.length)).map
        (fun (j : Nat) => ((min deleteCount.toNat items.length : Nat) : Int) + (j : Int)) := by
    unfold intRange
    have hc : (((items.length : Int) - min deleteCount (items.length : Int)) ⊔ 0).toNat =
        items.length - min deleteCount.toNat items.length := by omega
    rw [hc]
    apply List.map_congr_left
    intro j _
    omega
  have hRm : intRange (min deleteCount (items.length : Int)) deleteCount =
      (List.range (deleteCount.toNat - min deleteCount.toNat items.length)).map
        (fun (j : Nat) => ((min deleteCount.toNat items.length : Nat) : Int) + (j : Int)) := by
    unfold intRange
    have hc : ((deleteCount - min deleteCount (items.length : Int)) ⊔ 0).toNat =
        deleteCount.toNat - min deleteCount.toNat items.length := by omega
    rw [hc]
    apply List.map_congr_left
    intro j _
    omega
  congr 1
  · rw [hR, List.map_map]
    apply List.map_congr_left
    intro j hj
    rw [List.mem_range] at hj
    simp only [Function.comp]
    unfold jsListGet
    rw [if_pos (by omega : (0 : Int) ≤ (j : Int))]
    have ht : ((j : Int)).toNat = j := by omega
    rw [ht]
    rfl
  congr 1
  · rw [hA, List.map_map]
    apply List.map_congr_left
    intro j hj
    rw [List.mem_range] at hj
    simp only [Function.comp]
    unfold jsListGet
    rw [if_pos (by omega :
      (0 : Int) ≤ ((min deleteCount.toNat items.length : Nat) : Int) + (j : Int))]
    have ht : (((min deleteCount.toNat items.length : Nat) : Int) + (j : Int)).toNat =
        min deleteCount.toNat items.length + j := by omega
    have hp : start + (((min deleteCount.toNat items.length : Nat) : Int) + (j : Int)) =
        start + ((min deleteCount.toNat items.length : Nat) : Int) + (j : Int) := by omega
    rw [ht, hp]
    rfl
  · have hrev : (List.range (deleteCount.toNat - min deleteCount.toNat items.length)).reverse =
        (List.range (deleteCount.toNat - min deleteCount.toNat items.length)).map
          (fun j => deleteCount.toNat - min deleteCount.toNat items.length - 1 - j) := by
      rw [List.range_eq_range', List.reverse_range', ← List.range_eq_range']
      simp
    rw [hRm, ← List.map_reverse, hrev, List.map_map, List.map_map]
    apply List.map_congr_left
    intro j hj
    rw [List.mem_range] at hj
    simp only [Function.comp]
    unfold jsListGet
    rw [if_pos (by omega : (0 : Int) ≤ ((min deleteCount.toNat items.length : Nat) : Int) +
      ((deleteCount.toNat - min deleteCount.toNat items.length - 1 - j : Nat) : Int))]
    have h1 : start + (((min deleteCount.toNat items.length : Nat) : Int) +
        ((deleteCount.toNat - min deleteCount.toNat items.length - 1 - j : Nat) : Int)) =
        start + deleteCount - 1 - (j : Int) := by omega
    have h2 : (((min deleteCount.toNat items.length : Nat) : Int) +
        ((deleteCount.toNat - min deleteCount.toNat items.length - 1 - j : Nat) : Int)).toNat =
        deleteCount.toNat - 1 - j := by omega
    rw [h1, h2]
    rfl

/-- Witness for C5: splice(1, 2, 10, 20) on [1,2,3,4,5] yields two replace
patches at indices 1 and 2 (matching the scenario of §8 of the spec). -/
theorem c5_splice_patches_witness :
    (spliceStep { root := exItemsRoot, patches := [], options := {} } [.str "items"]
        1 2 [.int 10, .int 20]).map RecState.patches =
      .ok ([] ++
        ((List.range (min (Int.toNat 2) 2)).map (fun i =>
            mkReplace {} ([.str "items"] ++ [.num (1 + i)])
              ([Val.int 10, .int 20].getD i .undef)
              ((((Vals.ofList [.int 1, .int 2, .int 3, .int 4, .int 5]).toList.drop
                  (Int.toNat 1)).take (Int.toNat 2)).getD i .undef)) ++
         ((List.range (2 - min (Int.toNat 2) 2)).map (fun j =>
            mkAdd {} ([.str "items"] ++ [.num (1 + (min (Int.toNat 2) 2 : Nat) + j)])
              ([Val.int 10, .int 20].getD (min (Int.toNat 2) 2 + j) .undef)) ++
          (List.range (Int.toNat 2 - min (Int.toNat 2) 2)).map (fun j =>
            mkRemove {} ([.str "items"] ++ [.num (1 + 2 - 1 - j)])
              ((((Vals.ofList [.int 1, .int 2, .int 3, .int 4, .int 5]).toList.drop
                  (Int.toNat 1)).take (Int.toNat 2)).getD (Int.toNat 2 - 1 - j) .undef))))) :=
  c5_splice_patches { root := exItemsRoot, patches := [], options := {} } [.str "items"]
    1 2 [.int 10, .int 20] (Vals.ofList [.int 1, .int 2, .int 3, .int 4, .int 5])
    rfl (by decide) (by decide) (by decide)

theorem Before_mem {l : List Patch} {p q : Patch} (h : Before l p q) : p ∈ l ∧ q ∈ l := by
  induction l with
  | nil => exact absurd h (by simp [Before])
  | cons a t ih =>
      unfold Before at h
      rcases h with ⟨rfl, hq⟩ | h
      · exact ⟨List.mem_cons_self _ _, List.mem_cons_of_mem _ hq⟩
      · obtain ⟨hp, hq⟩ := ih h
        exact ⟨List.mem_cons_of_mem _ hp, List.mem_cons_of_mem _ hq⟩

theorem Before_append {xs ys : List Patch} {p q : Patch} :
    Before (xs ++ ys) p q ↔ Before xs p q ∨ (p ∈ xs ∧ q ∈ ys) ∨ Before ys p q := by
  induction xs with
  | nil => simp [Before]
  | cons a t ih =>
      rw [List.cons_append]
      rw [show Before (a :: (t ++ ys)) p q = ((a = p ∧ q ∈ t ++ ys) ∨ Before (t ++ ys) p q)
            from rfl,
          show Before (a :: t) p q = ((a = p ∧ q ∈ t) ∨ Before t p q) from rfl,
          ih, List.mem_append, List.mem_cons]
      tauto

theorem Before_filter {f : Patch → Bool} {l : List Patch} {p q : Patch}
    (h : Before (l.filter f) p q) : Before l p q := by
  induction l with
  | nil => exact absurd h (by simp [Before])
  | cons a t ih =>
      rw [List.filter_cons] at h
      unfold Before
      by_cases hf : f a = true
      · rw [if_pos hf] at h
        unfold Before at h
        rcases h with ⟨rfl, hq⟩ | h
        · exact Or.inl ⟨rfl, List.mem_of_mem_filter hq⟩
        · exact Or.inr (ih h)
      · rw [if_neg hf] at h
        exact Or.inr (ih h)

theorem KeyBefore_mem {l : List Key} {k1 k2 : Key} (h : KeyBefore l k1 k2) :
    k1 ∈ l ∧ k2 ∈ l := by
  induction l with
  | nil => exact absurd h (by simp [KeyBefore])
  | cons a t ih =>
      unfold KeyBefore at h
      rcases h with ⟨rfl, hq⟩ | h
      · exact ⟨List.mem_cons_self _ _, List.mem_cons_of_mem _ hq⟩
      · obtain ⟨hp, hq⟩ := ih h
        exact ⟨List.mem_cons_of_mem _ hp, List.mem_cons_of_mem _ hq⟩

theorem KeyBefore_append {xs ys : List Key} {k1 k2 : Key} :
    KeyBefore (xs ++ ys) k1 k2 ↔
      KeyBefore xs k1 k2 ∨ (k1 ∈ xs ∧ k2 ∈ ys) ∨ KeyBefore ys k1 k2 := by
  induction xs with
  | nil => simp [KeyBefore]
  | cons a t ih =>
      rw [List.cons_append]
      rw [show KeyBefore (a :: (t ++ ys)) k1 k2 =
            ((a = k1 ∧ k2 ∈ t ++ ys) ∨ KeyBefore (t ++ ys) k1 k2) from rfl,
          show KeyBefore (a :: t) k1 k2 = ((a = k1 ∧ k2 ∈ t) ∨ KeyBefore t k1 k2) from rfl,
          ih, List.mem_append, List.mem_cons]
      tauto

theorem mergePatches_path {p1 p2 m : Patch} (h : mergePatches p1 p2 = .merged m) :
    m.path = p1.path ∨ m.path = p2.path := by
  cases hop1 : p1.op <;> cases hop2 : p2.op <;>
      (unfold mergePatches at h
       rw [hop1, hop2] at h
       simp at h) <;>
      first
        | (split at h <;> simp_all)
        | (rw [← h]; simp)

theorem mergeStep_path {Ppath : List Key → Prop} {existing : Option Patch} {patch y : Patch}
    (hex : ∀ x, existing = some x → Ppath x.path) (hp : Ppath patch.path)
    (h : mergeStep existing patch = some y) : Ppath y.path := by
  unfold mergeStep at h
  cases hex0 : existing with
  | none =>
      rw [hex0] at h
      simp at h
      rw [← h]
      exact hp
  | some ex =>
      rw [hex0] at h
      dsimp only at h
      cases hm : mergePatches ex patch with
      | merged m2 =>
          rw [hm] at h
          simp at h
          rw [← h]
          rcases mergePatches_path hm with h1 | h2
          · rw [h1]
            exact hex ex hex0
          · rw [h2]
            exact hp
      | cancel =>
          rw [hm] at h
          simp at h
      | cantMerge =>
          rw [hm] at h
          simp at h
          rw [← h]
          exact hp

theorem emptyNode_all (P : Patch → Prop) : NodeAll P emptyNode := by
  constructor
  · intro x hx
    exact absurd hx (by simp)
  · trivial

theorem forestGet?_all {P : Patch → Prop} {k : Key} {n : PathNode} :
    ∀ {ch : Forest}, ForestAll P ch → forestGet? ch k = some n → NodeAll P n
  | .nil, _, h => absurd h (by simp [forestGet?])
  | .cons k0 n0 tl, hall, h => by
      unfold forestGet? at h
      unfold ForestAll at hall
      by_cases hk : k0 = k
      · rw [if_pos hk] at h
        cases h
        exact hall.1
      · rw [if_neg hk] at h
        exact forestGet?_all hall.2 h

theorem forestSet_all {P : Patch → Prop} {k : Key} {n : PathNode} :
    ∀ {ch : Forest}, ForestAll P ch → NodeAll P n → ForestAll P (forestSet ch k n)
  | .nil, _, hn => ⟨hn, trivial⟩
  | .cons k0 n0 tl, hall, hn => by
      unfold ForestAll at hall
      unfold forestSet
      by_cases hk : k0 = k
      · rw [if_pos hk]
        exact ⟨hn, hall.2⟩
      · rw [if_neg hk]
        exact ⟨hall.1, forestSet_all hall.2 hn⟩

theorem applyPatchAt_nodeAll {Ppath : List Key → Prop} {n : PathNode} {path : List Key}
    {patch : Patch} (hall : NodeAll (fun x => Ppath x.path) n) (hp : Ppath patch.path) :
    NodeAll (fun x => Ppath x.path) (applyPatchAt n path patch) := by
  induction path generalizing n with
  | nil =>
      cases n with
      | mk pp ch =>
          unfold applyPatchAt
          unfold NodeAll at hall ⊢
          refine ⟨?_, hall.2⟩
          intro x hx
          exact mergeStep_path hall.1 hp hx
  | cons k ks ih =>
      cases n with
      | mk pp ch =>
          unfold applyPatchAt
          unfold NodeAll at hall ⊢
          refine ⟨hall.1, ?_⟩
          apply forestSet_all hall.2
          apply ih
          cases hg : forestGet? ch k with
          | none => simpa [hg] using emptyNode_all _
          | some child => simpa [hg] using forestGet?_all hall.2 hg

mutual
theorem collectNode_all {P : Patch → Prop} : ∀ {n : PathNode}, NodeAll P n →
    ∀ p ∈ collectNode n, P p
  | .mk pp ch => fun hall p hp => by
      unfold collectNode at hp
      rw [List.mem_append] at hp
      rcases hp with hp | hp
      · cases hpp : pp with
        | none => rw [hpp] at hp; exact absurd hp (by simp)
        | some x =>
            rw [hpp] at hp
            simp at hp
            rw [hp]
            exact hall.1 x hpp
      · exact collectForest_all hall.2 p hp

theorem collectForest_all {P : Patch → Prop} : ∀ {ch : Forest}, ForestAll P ch →
    ∀ p ∈ collectForest ch, P p
  | .nil => fun _ p hp => absurd hp (by simp [collectForest])
  | .cons k n tl => fun hall p hp => by
      unfold collectForest at hp
      rw [List.mem_append] at hp
      rcases hp with hp | hp
      · exact collectNode_all hall.1 p hp
      · exact collectForest_all hall.2 p hp
end

theorem forestKeys_set {k : Key} {n : PathNode} :
    ∀ ch : Forest, forestKeys (forestSet ch k n) =
      if k ∈ forestKeys ch then forestKeys ch else forestKeys ch ++ [k]
  | .nil => by simp [forestSet, forestKeys]
  | .cons k0 n0 tl => by
      unfold forestSet
      by_cases hk : k0 = k
      · rw [if_pos hk]
        subst hk
        simp [forestKeys]
      · rw [if_neg hk]
        unfold forestKeys
        rw [forestKeys_set tl]
        have hne : ¬ (k = k0) := fun h => hk h.symm
        by_cases hmem : k ∈ forestKeys tl
        · simp [hmem, hne]
        · simp [hmem, hne]

theorem forestGet?_head {k : Key} {n : PathNode} :
    ∀ {ch : Forest}, ForestHeads ch → forestGet? ch k = some n →
      NodeAll (fun x => x.path.head? = some k) n
  | .nil, _, h => absurd h (by simp [forestGet?])
  | .cons k0 n0 tl, hh, h => by
      unfold forestGet? at h
      unfold ForestHeads at hh
      by_cases hk : k0 = k
      · rw [if_pos hk] at h
        cases h
        rw [← hk]
        exact hh.1
      · rw [if_neg hk] at h
        exact forestGet?_head hh.2 h

theorem forestHeads_set {k : Key} {n : PathNode}
    (hn : NodeAll (fun x => x.path.head? = some k) n) :
    ∀ {ch : Forest}, ForestHeads ch → ForestHeads (forestSet ch k n)
  | .nil, _ => ⟨hn, trivial⟩
  | .cons k0 n0 tl, hh => by
      unfold ForestHeads at hh
      unfold forestSet
      by_cases hk : k0 = k
      · rw [if_pos hk]
        refine ⟨?_, hh.2⟩
        rw [hk]
        exact hn
      · rw [if_neg hk]
        exact ⟨hh.1, forestHeads_set hn hh.2⟩

theorem headDedup_cons (acc : List Key) (p : Patch) (tl : List Patch) :
    headDedup acc (p :: tl) =
      match p.path.head? with
      | none => headDedup acc tl
      | some k => headDedup (if k ∈ acc then acc else acc ++ [k]) tl := rfl

theorem buildTree_inv :
    ∀ (input : List Patch) (t : PathNode),
      RootEmptyPath t → ForestHeads t.children →
      RootEmptyPath (input.foldl (fun t p => applyPatchAt t p.path p) t) ∧
      ForestHeads (input.foldl (fun t p => applyPatchAt t p.path p) t).children ∧
      forestKeys (input.foldl (fun t p => applyPatchAt t p.path p) t).children =
        headDedup (forestKeys t.children) input := by
  intro input
  induction input with
  | nil =>
      intro t h1 h2
      exact ⟨h1, h2, rfl⟩
  | cons p tl ih =>
      intro t h1 h2
      simp only [List.foldl_cons]
      cases t with
      | mk pp ch =>
        cases hpath : p.path with
        | nil =>
            rw [show applyPatchAt (.mk pp ch) ([] : List Key) p = .mk (mergeStep pp p) ch
              from rfl]
            have h1' : RootEmptyPath (PathNode.mk (mergeStep pp p) ch) := by
              intro x hx
              exact @mergeStep_path (fun q => q = []) pp p x h1 hpath hx
            obtain ⟨a, b, c⟩ := ih (.mk (mergeStep pp p) ch) h1' h2
            refine ⟨a, b, ?_⟩
            rw [c]
            show headDedup (forestKeys ch) tl = headDedup (forestKeys ch) (p :: tl)
            rw [headDedup_cons, hpath]
            rfl
        | cons k ks =>
            rw [show applyPatchAt (.mk pp ch) (k :: ks) p =
                .mk pp (forestSet ch k
                  (applyPatchAt ((forestGet? ch k).getD emptyNode) ks p)) from rfl]
            have hchild : NodeAll (fun x => x.path.head? = some k)
                ((forestGet? ch k).getD emptyNode) := by
              cases hg : forestGet? ch k with
              | none => simpa [hg] using emptyNode_all _
              | some child => simpa [hg] using forestGet?_head h2 hg
            have hnew : NodeAll (fun x => x.path.head? = some k)
                (applyPatchAt ((forestGet? ch k).getD emptyNode) ks p) :=
              @applyPatchAt_nodeAll (fun q => q.head? = some k)
                ((forestGet? ch k).getD emptyNode) ks p hchild (by rw [hpath]; rfl)
            have h1' : RootEmptyPath (PathNode.mk pp
                (forestSet ch k (applyPatchAt ((forestGet? ch k).getD emptyNode) ks p))) := h1
            have h2' : ForestHeads (forestSet ch k
                (applyPatchAt ((forestGet? ch k).getD emptyNode) ks p)) :=
              forestHeads_set hnew h2
            obtain ⟨a, b, c⟩ := ih _ h1' h2'
            refine ⟨a, b, ?_⟩
            rw [c]
            show headDedup (forestKeys (forestSet ch k
              (applyPatchAt ((forestGet? ch k).getD emptyNode) ks p))) tl =
              headDedup (forestKeys ch) (p :: tl)
            rw [forestKeys_set, headDedup_cons, hpath]
            rfl

theorem collectForest_key_mem {q : Patch} {k2 : Key} :
    ∀ {ch : Forest}, ForestHeads ch → q ∈ collectForest ch →
      q.path.head? = some k2 → k2 ∈ forestKeys ch
  | .nil, _, hq, _ => absurd hq (by simp [collectForest])
  | .cons k n tl, hh, hq, hk2 => by
      unfold ForestHeads at hh
      unfold collectForest at hq
      rw [List.mem_append] at hq
      unfold forestKeys
      rcases hq with hq | hq
      · have := collectNode_all hh.1 q hq
        rw [hk2] at this
        cases this
        exact List.mem_cons_self _ _
      · exact List.mem_cons_of_mem _ (collectForest_key_mem hh.2 hq hk2)

theorem blockHeads_before {p q : Patch} {k1 k2 : Key} :
    ∀ {ch : Forest}, ForestHeads ch → Before (collectForest ch) p q →
      p.path.head? = some k1 → q.path.head? = some k2 → k1 ≠ k2 →
      KeyBefore (forestKeys ch) k1 k2
  | .nil, _, hb, _, _, _ => absurd hb (by simp [collectForest, Before])
  | .cons k n tl, hh, hb, h1, h2, hne => by
      unfold ForestHeads at hh
      unfold collectForest at hb
      rw [Before_append] at hb
      unfold forestKeys
      rcases hb with hb | ⟨hp, hq⟩ | hb
      · obtain ⟨hpm, hqm⟩ := Before_mem hb
        have e1 := collectNode_all hh.1 p hpm
        have e2 := collectNode_all hh.1 q hqm
        rw [h1] at e1
        rw [h2] at e2
        cases e1
        cases e2
        exact absurd rfl hne
      · have e1 := collectNode_all hh.1 p hp
        rw [h1] at e1
        cases e1
        exact Or.inl ⟨rfl, collectForest_key_mem hh.2 hq h2⟩
      · exact Or.inr (blockHeads_before hh.2 hb h1 h2 hne)

theorem headDedup_prefix : ∀ (tl : List Patch) (acc : List Key),
    ∃ r, headDedup acc tl = acc ++ r
  | [], acc => ⟨[], by simp [headDedup]⟩
  | p :: tl, acc => by
      rw [headDedup_cons]
      cases hh : p.path.head? with
      | none => exact headDedup_prefix tl acc
      | some k =>
          dsimp only
          by_cases hm : k ∈ acc
          · rw [if_pos hm]
            exact headDedup_prefix tl acc
          · rw [if_neg hm]
            obtain ⟨r, hr⟩ := headDedup_prefix tl (acc ++ [k])
            exact ⟨[k] ++ r, by rw [hr, List.append_assoc]⟩

theorem headDedup_nodup : ∀ (tl : List Patch) (acc : List Key),
    acc.Nodup → (headDedup acc tl).Nodup
  | [], acc, h => by simpa [headDedup] using h
  | p :: tl, acc, h => by
      rw [headDedup_cons]
      cases hh : p.path.head? with
      | none => exact headDedup_nodup tl acc h
      | some k =>
          dsimp only
          by_cases hm : k ∈ acc
          · rw [if_pos hm]
            exact headDedup_nodup tl acc h
          · rw [if_neg hm]
            apply headDedup_nodup
            rw [List.nodup_append]
            exact ⟨h, List.nodup_singleton _, by simpa [List.disjoint_singleton] using hm⟩

theorem firstAt_cons_true {p : Patch} {tl : List Patch} {k : Key}
    (h : p.path.head? = some k) : firstAt (p :: tl) k = 0 := by
  unfold firstAt
  rw [List.findIdx_cons]
  simp [h]

theorem firstAt_cons_false {p : Patch} {tl : List Patch} {k : Key}
    (h : ¬ p.path.head? = some k) : firstAt (p :: tl) k = firstAt tl k + 1 := by
  unfold firstAt
  rw [List.findIdx_cons]
  have hb : (p.path.head? == some k) = false := by
    rw [beq_eq_false_iff_ne]
    exact h
  rw [hb]
  rfl

theorem headDedup_ord : ∀ (tl : List Patch) (acc : List Key) (k1 k2 : Key),
    acc.Nodup → k2 ∉ acc → k1 ≠ k2 →
    KeyBefore (headDedup acc tl) k1 k2 →
    k1 ∈ acc ∨ firstAt tl k1 < firstAt tl k2
  | [], acc, k1, k2, _, hk2, _, hkb => by
      rw [show headDedup acc ([] : List Patch) = acc from rfl] at hkb
      exact absurd (KeyBefore_mem hkb).2 hk2
  | p :: tl, acc, k1, k2, hnd, hk2, hne, hkb => by
      cases hh : p.path.head? with
      | none =>
          rw [headDedup_cons, hh] at hkb
          dsimp only at hkb
          rcases headDedup_ord tl acc k1 k2 hnd hk2 hne hkb with h | h
          · exact Or.inl h
          · refine Or.inr ?_
            rw [@firstAt_cons_false p tl k1 (by rw [hh]; simp),
                @firstAt_cons_false p tl k2 (by rw [hh]; simp)]
            omega
      | some k =>
          rw [headDedup_cons, hh] at hkb
          dsimp only at hkb
          by_cases hmem : k ∈ acc
          · rw [if_pos hmem] at hkb
            rcases headDedup_ord tl acc k1 k2 hnd hk2 hne hkb with h | h
            · exact Or.inl h
            · have hkk2 : ¬ k = k2 := fun hc => hk2 (hc ▸ hmem)
              refine Or.inr ?_
              rw [@firstAt_cons_false p tl k2 (by rw [hh]; simp [hkk2])]
              by_cases hkk1 : k = k1
              · rw [@firstAt_cons_true p tl k1 (by rw [hh, hkk1])]
                omega
              · rw [@firstAt_cons_false p tl k1 (by rw [hh]; simp [hkk1])]
                omega
          · rw [if_neg hmem] at hkb
            by_cases hkk2 : k = k2
            · subst hkk2
              obtain ⟨r, hr⟩ := headDedup_prefix tl (acc ++ [k])
              rw [hr] at hkb
              have hnd2 : ((acc ++ [k]) ++ r).Nodup := by
                rw [← hr]
                apply headDedup_nodup
                rw [List.nodup_append]
                exact ⟨hnd, List.nodup_singleton _,
                  by simpa [List.disjoint_singleton] using hmem⟩
              have hk2r : k ∉ r := by
                rw [List.nodup_append] at hnd2
                exact fun hc =>
                  hnd2.2.2 (List.mem_append_right acc (List.mem_singleton_self k)) hc
              rw [KeyBefore_append] at hkb
              rcases hkb with hkb | ⟨_, hc⟩ | hkb
              · rw [KeyBefore_append] at hkb
                rcases hkb with hkb | ⟨h1, _⟩ | hkb
                · exact absurd (KeyBefore_mem hkb).2 hk2
                · exact Or.inl h1
                · exact absurd hkb (by simp [KeyBefore])
              · exact absurd hc hk2r
              · exact absurd (KeyBefore_mem hkb).2 hk2r
            · have hk2acc : k2 ∉ acc ++ [k] := by
                intro hc
                rcases List.mem_append.1 hc with hc | hc
                · exact hk2 hc
                · exact hkk2 (List.mem_singleton.1 hc).symm
              have hnd2 : (acc ++ [k]).Nodup := by
                rw [List.nodup_append]
                exact ⟨hnd, List.nodup_singleton _,
                  by simpa [List.disjoint_singleton] using hmem⟩
              rcases headDedup_ord tl (acc ++ [k]) k1 k2 hnd2 hk2acc hne hkb with h | h
              · rcases List.mem_append.1 h with h | h
                · exact Or.inl h
                · have hk1 : k = k1 := (List.mem_singleton.1 h).symm
                  refine Or.inr ?_
                  rw [@firstAt_cons_true p tl k1 (by rw [hh, hk1]),
                      @firstAt_cons_false p tl k2 (by rw [hh]; simp [hkk2])]
                  omega
              · refine Or.inr ?_
                rw [@firstAt_cons_false p tl k2 (by rw [hh]; simp [hkk2])]
                by_cases hkk1 : k = k1
                · rw [@firstAt_cons_true p tl k1 (by rw [hh, hkk1])]
                  omega
                · rw [@firstAt_cons_false p tl k1 (by rw [hh]; simp [hkk1])]
                  omega

theorem cancelArrayPushPop_before {l : List Patch} {p q : Patch}
    (h : Before (cancelArrayPushPop l) p q) : Before l p q := Before_filter h

theorem cancelOutOfBoundsPatches_before {l : List Patch} {p q : Patch}
    (h : Before (cancelOutOfBoundsPatches l) p q) : Before l p q := Before_filter h

/-- C4: the compressor is claimed to never reorder surviving patches with
distinct paths; on the input add a.x, add b, add a.y the path-tree collection
emits a.y before b, where the input had b first — the claim fails. -/
theorem c4_counterexample :
    ¬ DistinctPathOrderKept [exPatchA, exPatchB, exPatchC]
      (compressPatchesWithNestedMaps [exPatchA, exPatchB, exPatchC]) := by
  intro h
  exact absurd (h exPatchC exPatchB (by decide) (by decide)) (by decide)

/-- C4 (amended): compression is optional — with compressPatches disabled the
recording entry point returns the raw chronological patch stream unchanged —
and the default compressor emits survivors in depth-first path-tree order:
two surviving patches whose paths differ in their first key appear in the
order in which those first keys first occur in the input. -/
theorem c4_amended :
    (∀ (root : Val) (ops : List SessionOp) (opts : Options) (st : RecState),
        opts.compressPatches = false →
        runOps { root := root, patches := [], options := opts } ops = .ok st →
        recordPatches root ops opts = .ok (st.root, st.patches)) ∧
    (∀ (input : List Patch) (p q : Patch) (k1 k2 : Key),
        Before (compressPatchesWithNestedMaps input) p q →
        p.path.head? = some k1 → q.path.head? = some k2 → k1 ≠ k2 →
        firstAt input k1 < firstAt input k2) := by
  constructor
  · intro root ops opts st hcp hrun
    unfold recordPatches
    rw [hrun]
    dsimp only
    rw [if_neg (by simp [hcp])]
  · intro input p q k1 k2 hb h1 h2 hne
    unfold compressPatchesWithNestedMaps at hb
    by_cases hlen : input.length = 0
    · rw [if_pos hlen] at hb
      rw [List.length_eq_zero.1 hlen] at hb
      exact absurd hb (by simp [Before])
    · rw [if_neg hlen] at hb
      dsimp only at hb
      have hb2 : Before (collectNode (buildTree input)) p q :=
        cancelArrayPushPop_before (cancelOutOfBoundsPatches_before hb)
      obtain ⟨hre, hfh, hkeys⟩ := buildTree_inv input emptyNode
        (fun x hx => by cases hx) trivial
      rw [show (input.foldl (fun t p => applyPatchAt t p.path p) emptyNode) =
            buildTree input from rfl] at hre hfh hkeys
      cases hroot : buildTree input with
      | mk rp rch =>
          rw [hroot] at hre hfh hkeys hb2
          simp only [PathNode.children] at hfh hkeys
          have hforest : Before (collectForest rch) p q := by
            cases rp with
            | none =>
                rw [show collectNode (PathNode.mk none rch) = collectForest rch
                      from by simp [collectNode]] at hb2
                exact hb2
            | some x =>
                have hx : x.path = [] := hre x rfl
                rw [show collectNode (PathNode.mk (some x) rch) =
                      [x] ++ collectForest rch from rfl] at hb2
                rw [Before_append] at hb2
                rcases hb2 with hb2 | ⟨hp, _⟩ | hb2
                · exact absurd hb2 (by simp [Before])
                · rw [List.mem_singleton.1 hp, hx] at h1
                  simp at h1
                · exact hb2
          have hkb := blockHeads_before hfh hforest h1 h2 hne
          rw [hkeys] at hkb
          rcases headDedup_ord input [] k1 k2 List.nodup_nil (by simp) hne hkb with h | h
          · exact absurd h (by simp)
          · exact h

theorem c4_amended_witness :
    recordPatches exMapRoot [] { compressPatches := false } =
      .ok (exMapRoot, ([] : List Patch)) ∧
    firstAt [exPatchA, exPatchB] (.str "a") < firstAt [exPatchA, exPatchB] (.str "b") :=
  ⟨c4_amended.1 exMapRoot []
      { compressPatches := false }
      { root := exMapRoot, patches := [], options := { compressPatches := false } }
      rfl rfl,
   c4_amended.2 [exPatchA, exPatchB] exPatchA exPatchB (.str "a") (.str "b")
      (by decide) rfl rfl (by decide)⟩
